import Mathlib

/-!
Verification of the static-analysis core of the `see-code` repository.

The development shallowly embeds the Python source under `src/backend/app/`
into Lean:

* `app/utils/code_parser.py` — the structural extractor (`FileInfo`,
  `CodeParser._calculate_python_complexity`,
  `CodeParser._calculate_generic_complexity`, `CodeParser.parse_directory`);
* `app/analyzers/complexity_analyzer.py` — the cyclomatic and cognitive
  complexity visitors and the function-level size/parameter checks;
* `app/analyzers/duplication_analyzer.py` — block extraction, exact-duplicate
  grouping, code normalization and the similarity measure;
* `app/analyzers/security_analyzer.py` — the regex pattern pass for the
  `sql_injection` vulnerability class;
* `app/analyzers/ast_analyzer.py` — the `CodePatternVisitor` checks;
* `app/agents/quality_agent.py` — the empty-input guard and
  `_calculate_quality_metrics`.

Python `float` arithmetic is modelled with exact rationals (`Rat`); all the
quantities the claims touch are small integers or exact tenths, where float
and rational arithmetic agree.  `hashlib.md5` digests are modelled by the
hashed text itself (an injective stand-in: the analyzers only compare digests
for equality).  Python strings are modelled as `List Char` where character
level work is needed and as `String` at the interfaces.
-/

namespace SeeCode

/-- `IssueSeverity` from `app/models/analysis.py`. -/
inductive IssueSeverity where
  | critical
  | high
  | medium
  | low
  | info
  deriving DecidableEq, Repr

/-- `IssueCategory` from `app/models/analysis.py`. -/
inductive IssueCategory where
  | security
  | performance
  | complexity
  | duplication
  | testing
  | documentation
  | maintainability
  | style
  | architecture
  | dependencies
  deriving DecidableEq, Repr

/-- `CodeIssue` from `app/models/analysis.py`, keeping the fields the claims
mention.  `impact_score` and `confidence` are rationals standing for Python
floats. -/
structure CodeIssue where
  id : String
  category : IssueCategory
  severity : IssueSeverity
  title : String
  description : String
  file_path : String
  line_number : Option Nat
  line_range : Option (Nat × Nat) := none
  suggestion : String
  impact_score : Rat
  confidence : Rat
  rule_id : Option String := none
  deriving DecidableEq, Repr

/-- `FileInfo` from `app/utils/code_parser.py` (the fields the analyzers
read; the syntax tree is carried separately where needed). -/
structure FileInfo where
  absolute_path : String := ""
  relative_path : String
  language : String
  content : String
  line_count : Nat := 0
  size_bytes : Nat := 0
  functions : List (String × Nat × Nat × List String) := []
  classes : List (String × Nat × Nat × List String) := []
  complexity_score : Rat := 0
  hash : String := ""
  deriving Repr

/-! ### Character and string helpers shared by the embeddings -/

/-- Whitespace in the sense of Python's `\s` and `str.strip` (the characters
occurring in this development). -/
def pyWhitespace (c : Char) : Bool :=
  c = ' ' ∨ c = '\t' ∨ c = '\n' ∨ c = '\r' ∨ c = '\x0b' ∨ c = '\x0c'

/-- A regex word character `[a-zA-Z0-9_]`. -/
def wordChar (c : Char) : Bool :=
  (c.isAlpha ∧ c.toNat < 128) ∨ c.isDigit ∨ c = '_'

/-- A character that may start a Python identifier, `[a-zA-Z_]`. -/
def wordStartChar (c : Char) : Bool :=
  (c.isAlpha ∧ c.toNat < 128) ∨ c = '_'

/-- Does `pat` occur as a contiguous sublist of `l`?  Models Python's
`pat in s` for strings. -/
def listHasSub (pat l : List Char) : Bool :=
  match l with
  | [] => pat.isEmpty
  | _ :: rest => (List.isPrefixOf pat l) || listHasSub pat rest

/-- Python `pat in s` on strings. -/
def strHasSub (pat s : String) : Bool :=
  listHasSub pat.data s.data

/-- Python `str.splitlines` restricted to `\n` separated text: the list of
lines without their newlines, with no entry for a trailing newline. -/
def splitLinesChars : List Char → List (List Char)
  | [] => []
  | c :: rest =>
    if c = '\n' then [] :: splitLinesChars rest
    else
      match splitLinesChars rest with
      | [] => [[c]]
      | line :: more => (c :: line) :: more

/-- `str.splitlines` at the `String` interface. -/
def splitLines (s : String) : List String :=
  (splitLinesChars s.data).map (fun cs => String.mk cs)

/-- Python `str.strip()`. -/
def pyStrip (s : String) : String :=
  String.mk (((s.data.dropWhile pyWhitespace).reverse.dropWhile pyWhitespace).reverse)

/-- Python `str.lower()` for the ASCII text handled here. -/
def pyLower (s : String) : String :=
  String.mk (s.data.map Char.toLower)

/-! ### The Python syntax tree fragment used by the analyzers

The embedding covers the node kinds the extractor and the complexity
analyzers dispatch on: function/class definitions, conditionals, loops,
`try`/`except`, `with`, `assert`, boolean operators, and enough expression
forms to host docstrings and operand lists.  Line numbers are carried as the
`lineno` attribute. -/

mutual
inductive PyExpr where
  | boolOp (isAnd : Bool) (values : List PyExpr)
  | nameE (id : String)
  | strConst (s : String)
  | numConst (n : Int)
  | binOp (lhs rhs : PyExpr)
  | callE (func : PyExpr) (args : List PyExpr)
  deriving Repr

inductive PyStmt where
  | funcDef (name : String) (lineno : Nat) (args : List String) (body : List PyStmt)
  | asyncFuncDef (name : String) (lineno : Nat) (args : List String) (body : List PyStmt)
  | classDef (name : String) (lineno : Nat) (bases : List PyExpr) (body : List PyStmt)
  | ifS (lineno : Nat) (test : PyExpr) (body orelse : List PyStmt)
  | whileS (lineno : Nat) (test : PyExpr) (body orelse : List PyStmt)
  | forS (lineno : Nat) (iter : PyExpr) (body orelse : List PyStmt)
  | asyncForS (lineno : Nat) (iter : PyExpr) (body orelse : List PyStmt)
  | tryS (lineno : Nat) (body : List PyStmt) (handlers : List PyHandler)
      (orelse finalbody : List PyStmt)
  | withS (lineno : Nat) (body : List PyStmt)
  | assertS (lineno : Nat) (test : PyExpr)
  | exprS (lineno : Nat) (e : PyExpr)
  | returnS (lineno : Nat) (e : Option PyExpr)
  | assignS (lineno : Nat) (target : String) (value : PyExpr)
  | passS (lineno : Nat)
  deriving Repr

inductive PyHandler where
  | mk (lineno : Nat) (typ : Option PyExpr) (body : List PyStmt)
  deriving Repr
end

/-- A whole parsed module: `ast.parse` returns a `Module` whose `body` is a
statement list. -/
def PyModule : Type := List PyStmt

/-! ### `CodeParser._calculate_python_complexity` (code_parser.py 400-414)

`ast.walk` visits every node; the loop adds 1 per `If`/`While`/`For`/
`AsyncFor`, `len(node.handlers)` per `Try`, and 1 per `And`/`Or` operator
node (one such operator node per `BoolOp`).  `comprehension` nodes fall
outside the embedded fragment. -/

mutual
def walkAddExpr : PyExpr → Nat
  | .boolOp _ values => 1 + walkAddExprs values
  | .nameE _ => 0
  | .strConst _ => 0
  | .numConst _ => 0
  | .binOp a b => walkAddExpr a + walkAddExpr b
  | .callE f args => walkAddExpr f + walkAddExprs args

def walkAddExprs : List PyExpr → Nat
  | [] => 0
  | e :: rest => walkAddExpr e + walkAddExprs rest

def walkAddStmt : PyStmt → Nat
  | .funcDef _ _ _ body => walkAddStmts body
  | .asyncFuncDef _ _ _ body => walkAddStmts body
  | .classDef _ _ bases body => walkAddExprs bases + walkAddStmts body
  | .ifS _ test body orelse => 1 + walkAddExpr test + walkAddStmts body + walkAddStmts orelse
  | .whileS _ test body orelse => 1 + walkAddExpr test + walkAddStmts body + walkAddStmts orelse
  | .forS _ iter body orelse => 1 + walkAddExpr iter + walkAddStmts body + walkAddStmts orelse
  | .asyncForS _ iter body orelse => 1 + walkAddExpr iter + walkAddStmts body + walkAddStmts orelse
  | .tryS _ body handlers orelse finalbody =>
      handlers.length + walkAddStmts body + walkAddHandlers handlers +
        walkAddStmts orelse + walkAddStmts finalbody
  | .withS _ body => walkAddStmts body
  | .assertS _ test => walkAddExpr test
  | .exprS _ e => walkAddExpr e
  | .returnS _ e => (match e with | some x => walkAddExpr x | none => 0)
  | .assignS _ _ value => walkAddExpr value
  | .passS _ => 0

def walkAddStmts : List PyStmt → Nat
  | [] => 0
  | s :: rest => walkAddStmt s + walkAddStmts rest

def walkAddHandlers : List PyHandler → Nat
  | [] => 0
  | .mk _ typ body :: rest =>
      (match typ with | some t => walkAddExpr t | none => 0) +
        walkAddStmts body + walkAddHandlers rest
end

/-- `_calculate_python_complexity`: base complexity 1, plus the walk. -/
def calculatePythonComplexity (tree : PyModule) : Rat :=
  ((1 + walkAddStmts tree : Nat) : Rat)

/-! ### `CodeParser._calculate_generic_complexity` (code_parser.py 416-429) -/

/-- The control-flow keywords counted at weight 1. -/
def controlKeywords : List (List Char) :=
  ["if ".data, "while ".data, "for ".data, "switch ".data, "case ".data,
    "catch ".data, "except ".data]

/-- The boolean keywords counted at weight 1/2. -/
def booleanKeywords : List (List Char) :=
  ["&&".data, "||".data, "and ".data, "or ".data]

/-- One loop iteration of `_calculate_generic_complexity`: the line is
stripped and lowercased, then adds 1 for a control-flow keyword, else 1/2
for a boolean keyword. -/
def genericLineAdd (line : List Char) : Rat :=
  let ls := ((line.dropWhile pyWhitespace).reverse.dropWhile pyWhitespace).reverse.map
    Char.toLower
  if controlKeywords.any (fun k => listHasSub k ls) then 1
  else if booleanKeywords.any (fun k => listHasSub k ls) then (1 : Rat) / 2
  else 0

/-- `_calculate_generic_complexity`: base 1.0 plus the per-line increments. -/
def calculateGenericComplexity (content : String) : Rat :=
  1 + ((splitLinesChars content.data).map genericLineAdd).sum

/-! ### `CodeParser._analyze_ast` dispatch (code_parser.py 224-296)

For Python files the built-in parser is used; a `SyntaxError` leaves the
defaults with `complexity_score = 1.0`.  Javascript/Typescript and every
other language run `_analyze_generic` (tree-sitter parsers are disabled, so
`self.parsers` is empty).  `parsed = none` stands for a syntax error. -/

def analyzedComplexity (language : String) (parsed : Option PyModule)
    (content : String) : Rat :=
  if language = "python" then
    match parsed with
    | some tree => calculatePythonComplexity tree
    | none => 1
  else calculateGenericComplexity content

lemma genericLineAdd_nonneg (line : List Char) : 0 ≤ genericLineAdd line := by
  unfold genericLineAdd
  simp only []
  split
  · norm_num
  · split
    · norm_num
    · norm_num

lemma calculateGenericComplexity_ge_one (content : String) :
    1 ≤ calculateGenericComplexity content := by
  unfold calculateGenericComplexity
  have h : 0 ≤ ((splitLinesChars content.data).map genericLineAdd).sum := by
    apply List.sum_nonneg
    intro x hx
    rcases List.mem_map.mp hx with ⟨line, _, rfl⟩
    exact genericLineAdd_nonneg line
  linarith

lemma calculatePythonComplexity_ge_one (tree : PyModule) :
    1 ≤ calculatePythonComplexity tree := by
  unfold calculatePythonComplexity
  have h : (1 : Nat) ≤ 1 + walkAddStmts tree := Nat.le_add_right 1 _
  exact_mod_cast h

/-! ### `ComplexityAnalyzer._analyze_python_cyclomatic` (complexity_analyzer.py 74-179)

The inner `ComplexityVisitor` is an `ast.NodeVisitor`: `visit_FunctionDef`
saves the running state, restarts the complexity at 1, walks the children,
records `(node, complexity, name)` and restores; `visit_If`, `visit_While`,
`visit_For`, `visit_AsyncFor`, `visit_ExceptHandler`, `visit_With` and
`visit_Assert` add 1 when inside a function; `visit_BoolOp` adds
`len(values) - 1`.  Nodes without a handler (`Try`, `ClassDef`,
`AsyncFunctionDef`, ...) are walked generically.  The state is threaded
explicitly here; `inFunc` models the truthiness of `self.current_function`. -/

structure CycState where
  inFunc : Bool
  complexity : Nat
  functions : List (String × Nat × Nat)
  deriving Repr

/-- Add 1 to the running complexity when inside a function. -/
def cycBump (st : CycState) : CycState :=
  if st.inFunc then { st with complexity := st.complexity + 1 } else st

mutual
def cycExpr (st : CycState) : PyExpr → CycState
  | .boolOp _ values =>
      let st := if st.inFunc then
          { st with complexity := st.complexity + (values.length - 1) }
        else st
      cycExprs st values
  | .nameE _ => st
  | .strConst _ => st
  | .numConst _ => st
  | .binOp a b => cycExpr (cycExpr st a) b
  | .callE f args => cycExprs (cycExpr st f) args

def cycExprs (st : CycState) : List PyExpr → CycState
  | [] => st
  | e :: rest => cycExprs (cycExpr st e) rest

def cycStmt (st : CycState) : PyStmt → CycState
  | .funcDef name lineno _ body =>
      let inner := cycStmts { st with inFunc := true, complexity := 1 } body
      { inFunc := st.inFunc, complexity := st.complexity,
        functions := inner.functions ++ [(name, lineno, inner.complexity)] }
  | .asyncFuncDef _ _ _ body => cycStmts st body
  | .classDef _ _ bases body => cycStmts (cycExprs st bases) body
  | .ifS _ test body orelse => cycStmts (cycStmts (cycExpr (cycBump st) test) body) orelse
  | .whileS _ test body orelse => cycStmts (cycStmts (cycExpr (cycBump st) test) body) orelse
  | .forS _ iter body orelse => cycStmts (cycStmts (cycExpr (cycBump st) iter) body) orelse
  | .asyncForS _ iter body orelse =>
      cycStmts (cycStmts (cycExpr (cycBump st) iter) body) orelse
  | .tryS _ body handlers orelse finalbody =>
      cycStmts (cycStmts (cycHandlers (cycStmts st body) handlers) orelse) finalbody
  | .withS _ body => cycStmts (cycBump st) body
  | .assertS _ test => cycExpr (cycBump st) test
  | .exprS _ e => cycExpr st e
  | .returnS _ e => (match e with | some x => cycExpr st x | none => st)
  | .assignS _ _ value => cycExpr st value
  | .passS _ => st

def cycStmts (st : CycState) : List PyStmt → CycState
  | [] => st
  | s :: rest => cycStmts (cycStmt st s) rest

def cycHandlers (st : CycState) : List PyHandler → CycState
  | [] => st
  | .mk _ typ body :: rest =>
      let st := cycBump st
      let st := (match typ with | some t => cycExpr st t | none => st)
      cycHandlers (cycStmts st body) rest
end

/-- The `(name, lineno, complexity)` triples recorded by `ComplexityVisitor`
over a module. -/
def cyclomaticFunctions (tree : PyModule) : List (String × Nat × Nat) :=
  (cycStmts { inFunc := false, complexity := 1, functions := [] } tree).functions

/-- The cyclomatic thresholds from `ComplexityAnalyzer.__init__`:
`{'low': 5, 'medium': 10, 'high': 15}`. -/
def cyclomaticMedium : Nat := 10

def cyclomaticHigh : Nat := 15

/-- The loop body of `_analyze_python_cyclomatic` for one recorded function:
an issue exactly when `complexity > 10`, with severity high above 15 and
medium otherwise. -/
def cyclomaticIssueFor (fileHash relPath : String) (f : String × Nat × Nat) :
    Option CodeIssue :=
  let name := f.1
  let lineno := f.2.1
  let c := f.2.2
  if cyclomaticMedium < c then
    some
      { id := "cyclomatic_" ++ fileHash ++ "_" ++ toString lineno
        category := .complexity
        severity := if cyclomaticHigh < c then .high else .medium
        title := "High Cyclomatic Complexity: " ++ name
        description := "Function '" ++ name ++ "' has cyclomatic complexity of "
          ++ toString c
        file_path := relPath
        line_number := some lineno
        suggestion := "Consider breaking this function into smaller functions. Target complexity: < 10"
        impact_score := min ((c : Rat) / 2) 10
        confidence := (9 : Rat) / 10
        rule_id := some "high_cyclomatic_complexity" }
  else none

/-- `_analyze_python_cyclomatic` on one Python file with a tree. -/
def analyzePythonCyclomatic (fi : FileInfo) (tree : PyModule) : List CodeIssue :=
  (cyclomaticFunctions tree).filterMap (cyclomaticIssueFor fi.hash fi.relative_path)

/-- C2: with the default thresholds (medium 10, high 15), a recorded function
of measured cyclomatic complexity exactly 10 produces no finding, one of
complexity 11 produces a finding of medium severity, and one of complexity
above 15 produces a finding of high severity. -/
theorem cyclomatic_threshold_boundary (fi : FileInfo) (tree : PyModule)
    (name : String) (lineno c : Nat)
    (hmem : (name, lineno, c) ∈ cyclomaticFunctions tree) :
    (c = 10 → cyclomaticIssueFor fi.hash fi.relative_path (name, lineno, c) = none) ∧
    (c = 11 → ∃ i ∈ analyzePythonCyclomatic fi tree,
      i.severity = .medium ∧ i.line_number = some lineno ∧
      i.title = "High Cyclomatic Complexity: " ++ name) ∧
    (15 < c → ∃ i ∈ analyzePythonCyclomatic fi tree,
      i.severity = .high ∧ i.line_number = some lineno ∧
      i.title = "High Cyclomatic Complexity: " ++ name) := by
  refine ⟨?_, ?_, ?_⟩
  · rintro rfl
    simp [cyclomaticIssueFor, cyclomaticMedium]
  · rintro rfl
    refine ⟨_, List.mem_filterMap.mpr ⟨(name, lineno, 11), hmem, rfl⟩, ?_, ?_, ?_⟩ <;>
      simp [cyclomaticIssueFor, cyclomaticMedium, cyclomaticHigh]
  · intro hc
    have h10 : cyclomaticMedium < c := by
      unfold cyclomaticMedium; omega
    have hhigh : cyclomaticHigh < c := hc
    have heq : cyclomaticIssueFor fi.hash fi.relative_path (name, lineno, c) =
        some
          { id := "cyclomatic_" ++ fi.hash ++ "_" ++ toString lineno
            category := .complexity
            severity := .high
            title := "High Cyclomatic Complexity: " ++ name
            description := "Function '" ++ name ++ "' has cyclomatic complexity of "
              ++ toString c
            file_path := fi.relative_path
            line_number := some lineno
            suggestion := "Consider breaking this function into smaller functions. Target complexity: < 10"
            impact_score := min ((c : Rat) / 2) 10
            confidence := (9 : Rat) / 10
            rule_id := some "high_cyclomatic_complexity" } := by
      unfold cyclomaticIssueFor
      rw [if_pos h10, if_pos hhigh]
    exact ⟨_, List.mem_filterMap.mpr ⟨(name, lineno, c), hmem, heq⟩, rfl, rfl, rfl⟩

/-- A module with three functions of visitor-measured cyclomatic
complexities 10, 11 and 16 (9, 10 and 15 sequential `if` statements over the
base 1), for the C2 witness. -/
def cycBoundaryTree : PyModule :=
  [.funcDef "ten" 1 [] (List.replicate 9 (PyStmt.ifS 2 (.nameE "c") [.passS 2] [])),
    .funcDef "eleven" 20 [] (List.replicate 10 (PyStmt.ifS 2 (.nameE "c") [.passS 2] [])),
    .funcDef "sixteen" 40 [] (List.replicate 15 (PyStmt.ifS 2 (.nameE "c") [.passS 2] []))]

/-- The file carrying `cycBoundaryTree`. -/
def cycBoundaryFile : FileInfo :=
  { relative_path := "w.py", language := "python", content := "", hash := "h" }

/-- Witness for C2: the boundary behavior checked on concrete functions of
measured complexity exactly 10, 11 and 16. -/
theorem cyclomatic_threshold_boundary_witness :
    ("ten", 1, 10) ∈ cyclomaticFunctions cycBoundaryTree ∧
    ("eleven", 20, 11) ∈ cyclomaticFunctions cycBoundaryTree ∧
    ("sixteen", 40, 16) ∈ cyclomaticFunctions cycBoundaryTree ∧
    cyclomaticIssueFor cycBoundaryFile.hash cycBoundaryFile.relative_path
      ("ten", 1, 10) = none ∧
    (∃ i ∈ analyzePythonCyclomatic cycBoundaryFile cycBoundaryTree,
      i.severity = .medium ∧ i.line_number = some 20 ∧
      i.title = "High Cyclomatic Complexity: " ++ "eleven") ∧
    (∃ i ∈ analyzePythonCyclomatic cycBoundaryFile cycBoundaryTree,
      i.severity = .high ∧ i.line_number = some 40 ∧
      i.title = "High Cyclomatic Complexity: " ++ "sixteen") := by
  refine ⟨?_, ?_, ?_, ?_, ?_, ?_⟩
  · decide
  · decide
  · decide
  · exact (cyclomatic_threshold_boundary cycBoundaryFile cycBoundaryTree "ten" 1 10
      (by decide)).1 rfl
  · exact (cyclomatic_threshold_boundary cycBoundaryFile cycBoundaryTree "eleven" 20 11
      (by decide)).2.1 rfl
  · exact (cyclomatic_threshold_boundary cycBoundaryFile cycBoundaryTree "sixteen" 40 16
      (by decide)).2.2 (by norm_num)

/-! ### `ComplexityAnalyzer._analyze_python_cognitive` (complexity_analyzer.py 348-456)

`CognitiveComplexityVisitor`: `visit_FunctionDef` saves score and nesting,
restarts both at 0, walks the children, records `(node, score, name)` and
restores.  `visit_If`, `visit_While` and `visit_For` add `1 + nesting_level`
and walk their children one level deeper; `visit_Try` adds a flat 1;
`visit_ExceptHandler` adds `1 + nesting_level`; `visit_BoolOp` adds a flat 1.
All other nodes (including `AsyncFor`, `With`, `Assert`,
`AsyncFunctionDef`) are walked generically.  The nesting level is passed as
a parameter, which models the increment/decrement pair around
`generic_visit`. -/

structure CogState where
  inFunc : Bool
  score : Nat
  functions : List (String × Nat × Nat)
  deriving Repr

mutual
def cogExpr (nest : Nat) (st : CogState) : PyExpr → CogState
  | .boolOp _ values =>
      let st := if st.inFunc then { st with score := st.score + 1 } else st
      cogExprs nest st values
  | .nameE _ => st
  | .strConst _ => st
  | .numConst _ => st
  | .binOp a b => cogExpr nest (cogExpr nest st a) b
  | .callE f args => cogExprs nest (cogExpr nest st f) args

def cogExprs (nest : Nat) (st : CogState) : List PyExpr → CogState
  | [] => st
  | e :: rest => cogExprs nest (cogExpr nest st e) rest

def cogStmt (nest : Nat) (st : CogState) : PyStmt → CogState
  | .funcDef name lineno _ body =>
      let inner := cogStmts 0 { st with inFunc := true, score := 0 } body
      { inFunc := st.inFunc, score := st.score,
        functions := inner.functions ++ [(name, lineno, inner.score)] }
  | .asyncFuncDef _ _ _ body => cogStmts nest st body
  | .classDef _ _ bases body => cogStmts nest (cogExprs nest st bases) body
  | .ifS _ test body orelse =>
      if st.inFunc then
        let st := { st with score := st.score + 1 + nest }
        cogStmts (nest + 1) (cogStmts (nest + 1) (cogExpr (nest + 1) st test) body) orelse
      else
        cogStmts nest (cogStmts nest (cogExpr nest st test) body) orelse
  | .whileS _ test body orelse =>
      if st.inFunc then
        let st := { st with score := st.score + 1 + nest }
        cogStmts (nest + 1) (cogStmts (nest + 1) (cogExpr (nest + 1) st test) body) orelse
      else
        cogStmts nest (cogStmts nest (cogExpr nest st test) body) orelse
  | .forS _ iter body orelse =>
      if st.inFunc then
        let st := { st with score := st.score + 1 + nest }
        cogStmts (nest + 1) (cogStmts (nest + 1) (cogExpr (nest + 1) st iter) body) orelse
      else
        cogStmts nest (cogStmts nest (cogExpr nest st iter) body) orelse
  | .asyncForS _ iter body orelse =>
      cogStmts nest (cogStmts nest (cogExpr nest st iter) body) orelse
  | .tryS _ body handlers orelse finalbody =>
      let st := if st.inFunc then { st with score := st.score + 1 } else st
      cogStmts nest (cogStmts nest (cogHandlers nest (cogStmts nest st body) handlers)
        orelse) finalbody
  | .withS _ body => cogStmts nest st body
  | .assertS _ test => cogExpr nest st test
  | .exprS _ e => cogExpr nest st e
  | .returnS _ e => (match e with | some x => cogExpr nest st x | none => st)
  | .assignS _ _ value => cogExpr nest st value
  | .passS _ => st

def cogStmts (nest : Nat) (st : CogState) : List PyStmt → CogState
  | [] => st
  | s :: rest => cogStmts nest (cogStmt nest st s) rest

def cogHandlers (nest : Nat) (st : CogState) : List PyHandler → CogState
  | [] => st
  | .mk _ typ body :: rest =>
      let st := if st.inFunc then { st with score := st.score + 1 + nest } else st
      let st := (match typ with | some t => cogExpr nest st t | none => st)
      cogHandlers nest (cogStmts nest st body) rest
end

/-- The `(name, lineno, cognitive_score)` triples recorded over a module. -/
def cognitiveFunctions (tree : PyModule) : List (String × Nat × Nat) :=
  (cogStmts 0 { inFunc := false, score := 0, functions := [] } tree).functions

/-- The conditional and loop kinds the cognitive visitor treats as nesting
constructs. -/
inductive CtrlKind where
  | ifK
  | whileK
  | forK
  deriving DecidableEq, Repr

/-- `inner` wrapped in a tower of conditionals/loops, outermost first. -/
def nestCtrl : List CtrlKind → List PyStmt → List PyStmt
  | [], inner => inner
  | .ifK :: rest, inner => [.ifS 1 (.nameE "c") (nestCtrl rest inner) []]
  | .whileK :: rest, inner => [.whileS 1 (.nameE "c") (nestCtrl rest inner) []]
  | .forK :: rest, inner => [.forS 1 (.nameE "xs") (nestCtrl rest inner) []]

/-- `k` sequential `if` statements. -/
def seqIfs (k : Nat) : List PyStmt :=
  List.replicate k (.ifS 1 (.nameE "c") [.passS 1] [])

/-- A bare `try: pass / except: pass` block. -/
def cogTryBlock : List PyStmt :=
  [.tryS 1 [.passS 1] [.mk 2 none [.passS 2]] [] []]

/-- An expression statement holding one two-operand boolean operation. -/
def cogBoolStmt : List PyStmt :=
  [.exprS 1 (.boolOp true [.nameE "a", .nameE "b"])]

/-- `1 + n` plus `1 + (n+1)` plus ... for `k` constructs starting at nesting
level `n`. -/
def rangeAdd (n k : Nat) : Nat :=
  ((List.range k).map (fun i => 1 + n + i)).sum

lemma rangeAdd_succ (n k : Nat) : rangeAdd n (k + 1) = 1 + n + rangeAdd (n + 1) k := by
  unfold rangeAdd
  rw [List.range_succ_eq_map]
  have hfun : ((fun i => 1 + n + i) ∘ Nat.succ) = fun i => 1 + (n + 1) + i := by
    funext i
    simp only [Function.comp_apply]
    omega
  simp only [List.map_cons, List.sum_cons, List.map_map, hfun]
  omega

/-- Walking `nestCtrl ks inner` inside a function from nesting level `n`:
each of the `ks` constructs adds `1` plus the nesting level at which it
stands, and `inner` is walked `ks.length` levels deeper. -/
lemma cogStmts_nestCtrl (ks : List CtrlKind) (inner : List PyStmt) (n : Nat)
    (st : CogState) (h : st.inFunc = true) :
    cogStmts n st (nestCtrl ks inner) =
      cogStmts (n + ks.length) { st with score := st.score + rangeAdd n ks.length }
        inner := by
  induction ks generalizing n st with
  | nil =>
    simp [nestCtrl, rangeAdd]
  | cons k rest ih =>
    cases k with
    | ifK =>
      simp only [nestCtrl, cogStmts, cogStmt, h, if_pos, cogExpr]
      rw [ih (n + 1) (CogState.mk true (st.score + 1 + n) st.functions) rfl]
      have harith : st.score + 1 + n + rangeAdd (n + 1) rest.length =
          st.score + rangeAdd n (rest.length + 1) := by
        rw [rangeAdd_succ]; omega
      simp only [List.length_cons]
      congr 1
      · omega
      · simp only [harith]
    | whileK =>
      simp only [nestCtrl, cogStmts, cogStmt, h, if_pos, cogExpr]
      rw [ih (n + 1) (CogState.mk true (st.score + 1 + n) st.functions) rfl]
      have harith : st.score + 1 + n + rangeAdd (n + 1) rest.length =
          st.score + rangeAdd n (rest.length + 1) := by
        rw [rangeAdd_succ]; omega
      simp only [List.length_cons]
      congr 1
      · omega
      · simp only [harith]
    | forK =>
      simp only [nestCtrl, cogStmts, cogStmt, h, if_pos, cogExpr]
      rw [ih (n + 1) (CogState.mk true (st.score + 1 + n) st.functions) rfl]
      have harith : st.score + 1 + n + rangeAdd (n + 1) rest.length =
          st.score + rangeAdd n (rest.length + 1) := by
        rw [rangeAdd_succ]; omega
      simp only [List.length_cons]
      congr 1
      · omega
      · simp only [harith]

/-- Inside a function, a bare `try: pass / except: pass` at nesting level
`m` adds 1 for the `Try` node plus `1 + m` for its handler. -/
lemma cogStmts_tryBlock (m : Nat) (st : CogState) (h : st.inFunc = true) :
    cogStmts m st cogTryBlock = { st with score := st.score + 1 + (1 + m) } := by
  cases st with
  | mk inFunc score functions =>
    simp only at h
    subst h
    simp [cogTryBlock, cogStmts, cogStmt, cogHandlers]
    omega

/-- Inside a function, a boolean operation adds a flat 1 at any nesting
level. -/
lemma cogStmts_boolStmt (m : Nat) (st : CogState) (h : st.inFunc = true) :
    cogStmts m st cogBoolStmt = { st with score := st.score + 1 } := by
  cases st with
  | mk inFunc score functions =>
    simp only at h
    subst h
    simp [cogBoolStmt, cogStmts, cogStmt, cogExpr, cogExprs]

/-- Inside a function, `k` sequential `if` statements at nesting level `n`
add `k * (1 + n)`. -/
lemma cogStmts_seqIfs (k : Nat) (n : Nat) (st : CogState) (h : st.inFunc = true) :
    cogStmts n st (seqIfs k) = { st with score := st.score + k * (1 + n) } := by
  induction k generalizing st with
  | zero => simp [seqIfs, cogStmts]
  | succ k ih =>
    cases st with
    | mk inFunc score functions =>
      simp only at h
      subst h
      have hrep : seqIfs (k + 1) =
          (.ifS 1 (.nameE "c") [.passS 1] []) :: seqIfs k := by
        simp [seqIfs, List.replicate_succ]
      rw [hrep]
      simp only [cogStmts, cogStmt, if_pos, cogExpr]
      rw [ih (CogState.mk true (score + 1 + n) functions) rfl]
      simp only [CogState.mk.injEq, and_true, true_and]
      ring

lemma two_mul_rangeAdd (n k : Nat) : 2 * rangeAdd n k = k * (2 * n + k + 1) := by
  induction k generalizing n with
  | zero => simp [rangeAdd]
  | succ k ih =>
    rw [rangeAdd_succ, Nat.mul_add, Nat.mul_add, ih]
    ring

/-- C7 counterexample: "exception handling adds a flat increment" fails on
the code.  The same `try: pass / except: pass` block contributes 2 to the
cognitive score at the top level of a function but 3 under one `if`
(`visit_ExceptHandler` adds `1 + self.nesting_level`, not a constant), so
wrapping it in a single conditional raises the score by 3, while wrapping a
`pass` raises it by 1: the block's increment depends on nesting. -/
theorem cognitive_exception_flat_counterexample :
    cognitiveFunctions [.funcDef "a" 1 [] cogTryBlock] = [("a", 1, 2)] ∧
    cognitiveFunctions [.funcDef "b" 1 [] [.ifS 2 (.nameE "c") cogTryBlock []]] =
      [("b", 1, 4)] ∧
    cognitiveFunctions [.funcDef "a0" 1 [] [.passS 2]] = [("a0", 1, 0)] ∧
    cognitiveFunctions [.funcDef "b0" 1 [] [.ifS 2 (.nameE "c") [.passS 3] []]] =
      [("b0", 1, 1)] ∧
    (4 : Nat) - 1 ≠ 2 - 0 := by
  refine ⟨by decide, by decide, by decide, by decide, by decide⟩

/-- C7 amended: in the cognitive-complexity visitor every conditional and
loop construct (`if`/`while`/`for`, in any combination) adds 1 plus the
current nesting level and walks its body one level deeper; the `try`
statement adds a flat 1 but each `except` handler adds 1 plus the current
nesting level (so exception handling is flat only at nesting level 0);
boolean operators add a flat 1 at every nesting level; and two nested `if`
statements (score 3) score strictly higher than two sequential `if`
statements (score 2). -/
theorem cognitive_scoring_amended :
    (∀ ks : List CtrlKind,
      cognitiveFunctions [.funcDef "f" 1 [] (nestCtrl ks [.passS 1])] =
        [("f", 1, rangeAdd 0 ks.length)]) ∧
    (∀ ks : List CtrlKind,
      cognitiveFunctions [.funcDef "f" 1 [] (nestCtrl ks cogTryBlock)] =
        [("f", 1, rangeAdd 0 ks.length + 1 + (1 + ks.length))]) ∧
    (∀ ks : List CtrlKind,
      cognitiveFunctions [.funcDef "f" 1 [] (nestCtrl ks cogBoolStmt)] =
        [("f", 1, rangeAdd 0 ks.length + 1)]) ∧
    (∀ k : Nat, cognitiveFunctions [.funcDef "f" 1 [] (seqIfs k)] = [("f", 1, k)]) ∧
    (∀ k : Nat, 2 * rangeAdd 0 k = k * (k + 1)) ∧
    (cognitiveFunctions [.funcDef "f" 1 [] (nestCtrl [.ifK, .ifK] [.passS 1])] =
        [("f", 1, 3)] ∧
      cognitiveFunctions [.funcDef "f" 1 [] (seqIfs 2)] = [("f", 1, 2)] ∧
      (2 : Nat) < 3) := by
  refine ⟨?_, ?_, ?_, ?_, ?_, by decide, by decide, by decide⟩
  · intro ks
    unfold cognitiveFunctions
    simp only [cogStmts, cogStmt]
    rw [cogStmts_nestCtrl ks _ 0 (CogState.mk true 0 []) rfl]
    simp [cogStmts, cogStmt]
  · intro ks
    unfold cognitiveFunctions
    simp only [cogStmts, cogStmt]
    rw [cogStmts_nestCtrl ks _ 0 (CogState.mk true 0 []) rfl,
      cogStmts_tryBlock _ _ rfl]
    simp only []
    norm_num
  · intro ks
    unfold cognitiveFunctions
    simp only [cogStmts, cogStmt]
    rw [cogStmts_nestCtrl ks _ 0 (CogState.mk true 0 []) rfl,
      cogStmts_boolStmt _ _ rfl]
    simp only []
    norm_num
  · intro k
    unfold cognitiveFunctions
    simp only [cogStmts, cogStmt]
    rw [cogStmts_seqIfs k 0 (CogState.mk true 0 []) rfl]
    simp
  · intro k
    rw [two_mul_rangeAdd]
    ring

/-- C1: every `FileInfo` the extractor completes gets a complexity score of
at least 1.0, on the tree-based Python path, the heuristic generic path, and
the syntax-error default alike (`_calculate_python_complexity` starts from
base 1 and only adds, `_calculate_generic_complexity` starts from 1.0 and
only adds, and the `SyntaxError` branch sets 1.0). -/
theorem complexity_score_ge_one (language : String) (parsed : Option PyModule)
    (content : String) : 1 ≤ analyzedComplexity language parsed content := by
  unfold analyzedComplexity
  split
  · cases parsed with
    | some tree => exact calculatePythonComplexity_ge_one tree
    | none => norm_num
  · exact calculateGenericComplexity_ge_one content

/-! ### `QualityIntelligenceAgent` (quality_agent.py)

`analyze_codebase` parses the target and then runs the guard at lines
96-97: `if not parsed_files: raise ValueError("No supported files found in
codebase")`.  `_calculate_quality_metrics` (lines 539-612) computes the
aggregate scores; its `except` branch is unreachable in the embedding (the
body is total), so only the `try` body is modelled. -/

/-- Lines 96-97 of `analyze_codebase`: the run aborts with a `ValueError`
when the parsed unit list is empty; otherwise the pipeline continues with
the units. -/
def emptyUnitsGuard (parsedFiles : List FileInfo) : Except String (List FileInfo) :=
  if parsedFiles.isEmpty then .error "No supported files found in codebase"
  else .ok parsedFiles

/-- Python's built-in `max`/`min` on two values, kept kernel-reducible. -/
def pyMax (a b : Rat) : Rat := if a ≤ b then b else a

/-- See `pyMax`. -/
def pyMin (a b : Rat) : Rat := if a ≤ b then a else b

/-- The floor of a rational, computably. -/
def ratFloor (q : Rat) : Int := Int.fdiv q.num q.den

/-- Python `round(x, 1)`: nearest tenth, ties to the even tenth. -/
def pyRound1 (q : Rat) : Rat :=
  let m : Rat := q * 10
  let fl : Int := ratFloor m
  let fr : Rat := m - fl
  if fr < (1 : Rat) / 2 then (fl : Rat) / 10
  else if (1 : Rat) / 2 < fr then ((fl + 1 : Int) : Rat) / 10
  else if fl % 2 = 0 then (fl : Rat) / 10 else ((fl + 1 : Int) : Rat) / 10

/-- The dictionary returned by `_calculate_quality_metrics`. -/
structure QualityMetricsOut where
  overall_score : Rat
  maintainability_index : Rat
  cyclomatic_complexity : Rat
  test_coverage : Rat
  code_duplication : Rat
  technical_debt_ratio : Rat
  security_score : Rat
  performance_score : Rat
  documentation_coverage : Rat
  dependency_health : Rat
  deriving DecidableEq, Repr

/-- The issues of one category. -/
def countCat (issues : List CodeIssue) (cat : IssueCategory) : Nat :=
  (issues.filter (fun i => i.category = cat)).length

/-- `_calculate_quality_metrics` (quality_agent.py 539-596). -/
def calculateQualityMetrics (issues : List CodeIssue) (parsedFiles : List FileInfo) :
    QualityMetricsOut :=
  let critical_issues : Nat := (issues.filter (fun i => i.severity = .critical)).length
  let high_issues : Nat := (issues.filter (fun i => i.severity = .high)).length
  let security_score : Rat := pyMax 0 (100 - (countCat issues .security : Rat) * 5)
  let performance_score : Rat := pyMax 0 (100 - (countCat issues .performance : Rat) * 3)
  let complexity_count : Nat := countCat issues .complexity
  let avg_cyclomatic : Rat :=
    if parsedFiles.isEmpty then 1
    else (parsedFiles.map (fun f => f.complexity_score)).sum / (parsedFiles.length : Rat)
  let maintainability_index : Rat :=
    pyMax 0 (100 - (complexity_count : Rat) * 3 - avg_cyclomatic * 2)
  let code_duplication : Rat := pyMin 100 ((countCat issues .duplication : Rat) * 5 / 2)
  let tech_debt_factors : Rat :=
    (critical_issues : Rat) * 8 + (high_issues : Rat) * 4 + (complexity_count : Rat) * 2
  let total_lines : Rat :=
    if parsedFiles.isEmpty then 1
    else ((parsedFiles.map (fun f => f.line_count)).sum : Rat)
  let technical_debt_ratio : Rat := pyMin 100 ((tech_debt_factors / total_lines) * 1000)
  let documentation_coverage : Rat :=
    pyMax 0 (80 - (countCat issues .documentation : Rat) * 10)
  let dependency_issues : Nat := (issues.filter (fun i =>
    strHasSub "dependency" (pyLower i.title) || strHasSub "import" (pyLower i.title))).length
  let dependency_health : Rat := pyMax 0 (100 - (dependency_issues : Rat) * 5)
  let test_coverage : Rat := pyMax 0 (70 -
    ((issues.filter (fun i => strHasSub "test" (pyLower i.title))).length : Rat) * 15)
  let overall_score : Rat :=
    security_score * (25 / 100) + performance_score * (20 / 100) +
      maintainability_index * (20 / 100) + (100 - code_duplication) * (15 / 100) +
      (100 - technical_debt_ratio) * (10 / 100) +
      documentation_coverage * (5 / 100) + dependency_health * (5 / 100)
  { overall_score := pyRound1 overall_score
    maintainability_index := pyRound1 maintainability_index
    cyclomatic_complexity := pyRound1 avg_cyclomatic
    test_coverage := pyRound1 test_coverage
    code_duplication := pyRound1 code_duplication
    technical_debt_ratio := pyRound1 technical_debt_ratio
    security_score := pyRound1 security_score
    performance_score := pyRound1 performance_score
    documentation_coverage := pyRound1 documentation_coverage
    dependency_health := pyRound1 dependency_health }

/-- C9 counterexample: on an empty `SourceUnit` list the analysis stage does
not return a report — `analyze_codebase` raises
`ValueError("No supported files found in codebase")` at its guard. -/
theorem analyze_empty_units_raises_counterexample :
    emptyUnitsGuard [] = Except.error "No supported files found in codebase" := by
  rfl

/-- C9 amended: given an empty `SourceUnit` list, the analysis stage raises
a "No supported files found in codebase" error instead of returning a
report; the quality-metrics computation itself, applied to empty issue and
file lists, returns its computed defaults (overall 98.6, maintainability 98,
average cyclomatic complexity 1.0, test coverage 70, duplication 0,
technical debt 0, security 100, performance 100, documentation 80,
dependency health 100) without raising or dividing by zero thanks to its
`if parsed_files` guards. -/
theorem analyze_empty_units_amended :
    emptyUnitsGuard [] = Except.error "No supported files found in codebase" ∧
    calculateQualityMetrics [] [] =
      { overall_score := 493 / 5
        maintainability_index := 98
        cyclomatic_complexity := 1
        test_coverage := 70
        code_duplication := 0
        technical_debt_ratio := 0
        security_score := 100
        performance_score := 100
        documentation_coverage := 80
        dependency_health := 100 } := by
  constructor
  · rfl
  · norm_num [calculateQualityMetrics, countCat, pyRound1, pyMax, pyMin, ratFloor]

/-! ### `DuplicationAnalyzer._calculate_similarity` (duplication_analyzer.py 474-491)

When `difflib` is importable the code returns
`difflib.SequenceMatcher(None, text1, text2).ratio()`; otherwise it computes
a Jaccard similarity over whitespace-separated token sets.  `difflib` is
standard-library code outside this repository; it is modelled by its
documented Ratcliff–Obershelp behavior: the total size of the matching
blocks found by recursively taking a longest matching block (earliest in
`(i, j)` on ties) and recursing on both sides, with
`ratio = 2 * matches / (len(a) + len(b))` and `1.0` when both are empty.
The `autojunk` popularity heuristic is not modelled. -/

/-- Length of the longest common prefix. -/
def commonPrefixLen : List Char → List Char → Nat
  | a :: as, b :: bs => if a = b then commonPrefixLen as bs + 1 else 0
  | _, _ => 0

lemma commonPrefixLen_le_left (a b : List Char) :
    commonPrefixLen a b ≤ a.length := by
  induction a generalizing b with
  | nil => simp [commonPrefixLen]
  | cons x xs ih =>
    cases b with
    | nil => simp [commonPrefixLen]
    | cons y ys =>
      simp only [commonPrefixLen, List.length_cons]
      split
      · exact Nat.succ_le_succ (ih ys)
      · exact Nat.zero_le _

lemma commonPrefixLen_le_right (a b : List Char) :
    commonPrefixLen a b ≤ b.length := by
  induction a generalizing b with
  | nil => simp [commonPrefixLen]
  | cons x xs ih =>
    cases b with
    | nil => simp [commonPrefixLen]
    | cons y ys =>
      simp only [commonPrefixLen, List.length_cons]
      split
      · exact Nat.succ_le_succ (ih ys)
      · exact Nat.zero_le _

lemma commonPrefixLen_self (a : List Char) : commonPrefixLen a a = a.length := by
  induction a with
  | nil => simp [commonPrefixLen]
  | cons x xs ih => simp [commonPrefixLen, ih]

/-- All candidate matches `(i, j, length of common prefix of the suffixes)`. -/
def matchCands (a b : List Char) : List (Nat × Nat × Nat) :=
  (List.range a.length).flatMap (fun i => (List.range b.length).map
    (fun j => (i, j, commonPrefixLen (a.drop i) (b.drop j))))

/-- Scan the candidates, replacing the best on a strictly larger length
(ties keep the earliest candidate, as `find_longest_match` does). -/
def pickBest : List (Nat × Nat × Nat) → (Nat × Nat × Nat) → (Nat × Nat × Nat)
  | [], best => best
  | c :: cs, best => pickBest cs (if best.2.2 < c.2.2 then c else best)

/-- `difflib.SequenceMatcher.find_longest_match` over the whole strings. -/
def bestMatch (a b : List Char) : Nat × Nat × Nat :=
  pickBest (matchCands a b) (0, 0, 0)

lemma pickBest_self_or_mem (cs : List (Nat × Nat × Nat)) (best : Nat × Nat × Nat) :
    pickBest cs best = best ∨ pickBest cs best ∈ cs := by
  induction cs generalizing best with
  | nil => left; rfl
  | cons c rest ih =>
    rcases ih (if best.2.2 < c.2.2 then c else best) with h | h
    · rw [pickBest, h]
      split
      · right; exact List.mem_cons_self _ _
      · left; rfl
    · right
      rw [pickBest]
      exact List.mem_cons_of_mem _ h

lemma pickBest_ge_init (cs : List (Nat × Nat × Nat)) (best : Nat × Nat × Nat) :
    best.2.2 ≤ (pickBest cs best).2.2 := by
  induction cs generalizing best with
  | nil => exact Nat.le_refl _
  | cons c rest ih =>
    rw [pickBest]
    refine Nat.le_trans ?_ (ih _)
    split
    · omega
    · exact Nat.le_refl _

lemma pickBest_ge_mem (cs : List (Nat × Nat × Nat)) (best c : Nat × Nat × Nat)
    (h : c ∈ cs) : c.2.2 ≤ (pickBest cs best).2.2 := by
  induction cs generalizing best with
  | nil => cases h
  | cons d rest ih =>
    rcases List.mem_cons.mp h with rfl | h
    · rw [pickBest]
      refine Nat.le_trans ?_ (pickBest_ge_init _ _)
      split
      · exact Nat.le_refl _
      · omega
    · rw [pickBest]
      exact ih _ h

lemma mem_matchCands {a b : List Char} {c : Nat × Nat × Nat}
    (h : c ∈ matchCands a b) :
    c.1 < a.length ∧ c.2.1 < b.length ∧
      c.2.2 = commonPrefixLen (a.drop c.1) (b.drop c.2.1) := by
  unfold matchCands at h
  rcases List.mem_flatMap.mp h with ⟨i, hi, hmem⟩
  rcases List.mem_map.mp hmem with ⟨j, hj, rfl⟩
  exact ⟨List.mem_range.mp hi, List.mem_range.mp hj, rfl⟩

lemma bestMatch_bounds (a b : List Char) :
    (bestMatch a b).2.2 ≤ a.length - (bestMatch a b).1 ∧
      (bestMatch a b).2.2 ≤ b.length - (bestMatch a b).2.1 ∧
      ((bestMatch a b).2.2 ≠ 0 →
        (bestMatch a b).1 < a.length ∧ (bestMatch a b).2.1 < b.length) := by
  rcases pickBest_self_or_mem (matchCands a b) (0, 0, 0) with h | h
  · unfold bestMatch
    rw [h]
    simp
  · rcases mem_matchCands h with ⟨hi, hj, hk⟩
    unfold bestMatch
    refine ⟨?_, ?_, fun _ => ⟨hi, hj⟩⟩
    · calc (pickBest (matchCands a b) (0, 0, 0)).2.2
          = commonPrefixLen (a.drop (bestMatch a b).1) (b.drop (bestMatch a b).2.1) := hk
        _ ≤ (a.drop (bestMatch a b).1).length := commonPrefixLen_le_left _ _
        _ = a.length - (bestMatch a b).1 := List.length_drop _ _
    · calc (pickBest (matchCands a b) (0, 0, 0)).2.2
          = commonPrefixLen (a.drop (bestMatch a b).1) (b.drop (bestMatch a b).2.1) := hk
        _ ≤ (b.drop (bestMatch a b).2.1).length := commonPrefixLen_le_right _ _
        _ = b.length - (bestMatch a b).2.1 := List.length_drop _ _

/-- The total size of the matching blocks of the Ratcliff–Obershelp
recursion: take the longest matching block, recurse left of it and right of
it. -/
def ratcliffTotal (a b : List Char) : Nat :=
  if h : (bestMatch a b).2.2 = 0 then 0
  else
    ratcliffTotal (a.take (bestMatch a b).1) (b.take (bestMatch a b).2.1) +
      (bestMatch a b).2.2 +
      ratcliffTotal (a.drop ((bestMatch a b).1 + (bestMatch a b).2.2))
        (b.drop ((bestMatch a b).2.1 + (bestMatch a b).2.2))
termination_by a.length + b.length
decreasing_by
  · have hb := bestMatch_bounds a b
    have h1 : (bestMatch a b).1 < a.length := (hb.2.2 h).1
    have h2 : (bestMatch a b).2.1 < b.length := (hb.2.2 h).2
    simp only [List.length_take]
    omega
  · have hb := bestMatch_bounds a b
    have h1 : (bestMatch a b).1 < a.length := (hb.2.2 h).1
    have h2 : (bestMatch a b).2.1 < b.length := (hb.2.2 h).2
    have hk : 0 < (bestMatch a b).2.2 := Nat.pos_of_ne_zero h
    simp only [List.length_drop]
    omega

lemma ratcliffTotal_le (a b : List Char) :
    ratcliffTotal a b ≤ a.length ∧ ratcliffTotal a b ≤ b.length := by
  induction a, b using ratcliffTotal.induct with
  | case1 a b h =>
    rw [ratcliffTotal, dif_pos h]
    simp
  | case2 a b h ih1 ih2 =>
    rw [ratcliffTotal, dif_neg h]
    have hb := bestMatch_bounds a b
    have h1 : (bestMatch a b).1 < a.length := (hb.2.2 h).1
    have h2 : (bestMatch a b).2.1 < b.length := (hb.2.2 h).2
    have hk1 : (bestMatch a b).2.2 ≤ a.length - (bestMatch a b).1 := hb.1
    have hk2 : (bestMatch a b).2.2 ≤ b.length - (bestMatch a b).2.1 := hb.2.1
    rcases ih1 with ⟨ih1a, ih1b⟩
    rcases ih2 with ⟨ih2a, ih2b⟩
    simp only [List.length_take, List.length_drop] at ih1a ih1b ih2a ih2b
    constructor <;> omega

lemma bestMatch_self (a : List Char) (h : a ≠ []) :
    bestMatch a a = (0, 0, a.length) := by
  have hla : 0 < a.length := List.length_pos.mpr h
  have hc : ((0 : Nat), (0 : Nat), commonPrefixLen a a) ∈ matchCands a a := by
    unfold matchCands
    refine List.mem_flatMap.mpr ⟨0, List.mem_range.mpr hla, ?_⟩
    refine List.mem_map.mpr ⟨0, List.mem_range.mpr hla, ?_⟩
    simp
  have hge : a.length ≤ (bestMatch a a).2.2 := by
    have := pickBest_ge_mem (matchCands a a) (0, 0, 0) _ hc
    rwa [commonPrefixLen_self] at this
  have hb := bestMatch_bounds a a
  have hkne : (bestMatch a a).2.2 ≠ 0 := by omega
  have hi : (bestMatch a a).1 = 0 := by
    have := hb.1
    omega
  have hj : (bestMatch a a).2.1 = 0 := by
    have := hb.2.1
    omega
  have hkeq : (bestMatch a a).2.2 = a.length := by
    have := hb.1
    omega
  have : bestMatch a a =
      ((bestMatch a a).1, (bestMatch a a).2.1, (bestMatch a a).2.2) := rfl
  rw [this, hi, hj, hkeq]

lemma ratcliffTotal_nil : ratcliffTotal [] [] = 0 := by
  rw [ratcliffTotal]
  norm_num [bestMatch, matchCands, pickBest]

lemma ratcliffTotal_self (a : List Char) : ratcliffTotal a a = a.length := by
  by_cases h : a = []
  · subst h
    simp [ratcliffTotal_nil]
  · rw [ratcliffTotal]
    have hbm := bestMatch_self a h
    have hk : (bestMatch a a).2.2 = a.length := by rw [hbm]
    have hi : (bestMatch a a).1 = 0 := by rw [hbm]
    have hj : (bestMatch a a).2.1 = 0 := by rw [hbm]
    have hne : ¬((bestMatch a a).2.2 = 0) := by
      rw [hk]
      exact fun hcon => h (List.length_eq_zero.mp hcon)
    rw [dif_neg hne, hi, hj, hk]
    simp [List.drop_length, ratcliffTotal_nil]

/-- `SequenceMatcher.ratio()` followed by `_calculate_ratio`:
`2 * matches / (len(a) + len(b))`, and 1.0 on two empty sequences. -/
def seqMatcherScore (a b : List Char) : Rat :=
  if a.length + b.length = 0 then 1
  else 2 * (ratcliffTotal a b : Rat) / ((a.length + b.length : Nat) : Rat)

/-- Python `str.split()` (split on whitespace runs, no empty tokens):
the accumulator holds the current word reversed. -/
def splitWordsAux : List Char → List Char → List (List Char)
  | [], acc => if acc.isEmpty then [] else [acc.reverse]
  | c :: rest, acc =>
    if pyWhitespace c then
      if acc.isEmpty then splitWordsAux rest []
      else acc.reverse :: splitWordsAux rest []
    else splitWordsAux rest (c :: acc)

/-- Python `text.split()`. -/
def pySplitWs (l : List Char) : List (List Char) := splitWordsAux l []

/-- The `difflib`-less fallback branch of `_calculate_similarity`: Jaccard
similarity of the whitespace-token sets, 1.0 when both sets are empty, 0.0
when exactly one is. -/
def jaccardSimilarity (text1 text2 : String) : Rat :=
  let set1 := (pySplitWs text1.data).toFinset
  let set2 := (pySplitWs text2.data).toFinset
  if set1 = ∅ ∧ set2 = ∅ then 1
  else if set1 = ∅ ∨ set2 = ∅ then 0
  else
    let inter := (set1 ∩ set2).card
    let un := (set1 ∪ set2).card
    if 0 < un then (inter : Rat) / (un : Rat) else 0

/-- `DuplicationAnalyzer._calculate_similarity`, with the module-level
`DIFFLIB_AVAILABLE` flag as a parameter. -/
def calcSimilarity (difflibAvailable : Bool) (text1 text2 : String) : Rat :=
  if difflibAvailable then seqMatcherScore text1.data text2.data
  else jaccardSimilarity text1 text2

lemma seqMatcherScore_nonneg (a b : List Char) : 0 ≤ seqMatcherScore a b := by
  unfold seqMatcherScore
  split
  · norm_num
  · positivity

lemma seqMatcherScore_le_one (a b : List Char) : seqMatcherScore a b ≤ 1 := by
  unfold seqMatcherScore
  split
  · norm_num
  · rename_i ht
    have htpos : 0 < a.length + b.length := Nat.pos_of_ne_zero ht
    rw [div_le_one (by exact_mod_cast htpos)]
    have hle := ratcliffTotal_le a b
    have : 2 * ratcliffTotal a b ≤ a.length + b.length := by omega
    exact_mod_cast this

lemma seqMatcherScore_self (a : List Char) : seqMatcherScore a a = 1 := by
  unfold seqMatcherScore
  split
  · rfl
  · rename_i ht
    rw [ratcliffTotal_self]
    rw [div_eq_one_iff_eq]
    · push_cast
      ring
    · have htpos : 0 < a.length + a.length := Nat.pos_of_ne_zero ht
      have : (0 : Rat) < ((a.length + a.length : Nat) : Rat) := by exact_mod_cast htpos
      exact ne_of_gt this

lemma jaccardSimilarity_nonneg (t1 t2 : String) : 0 ≤ jaccardSimilarity t1 t2 := by
  unfold jaccardSimilarity
  simp only []
  split
  · norm_num
  · split
    · norm_num
    · split
      · positivity
      · norm_num

lemma jaccardSimilarity_le_one (t1 t2 : String) : jaccardSimilarity t1 t2 ≤ 1 := by
  unfold jaccardSimilarity
  simp only []
  split
  · norm_num
  · split
    · norm_num
    · split
      · rename_i hpos
        rw [div_le_one (by exact_mod_cast hpos)]
        have hsub := Finset.card_le_card
          (Finset.inter_subset_union :
            (pySplitWs t1.data).toFinset ∩ (pySplitWs t2.data).toFinset ⊆
              (pySplitWs t1.data).toFinset ∪ (pySplitWs t2.data).toFinset)
        exact_mod_cast hsub
      · norm_num

lemma jaccardSimilarity_self (t : String) : jaccardSimilarity t t = 1 := by
  unfold jaccardSimilarity
  simp only []
  split
  · rfl
  · rename_i hne
    have hne1 : ¬((pySplitWs t.data).toFinset = ∅) := by
      intro hempty
      exact hne ⟨hempty, hempty⟩
    rw [if_neg (by
      intro hcon
      rcases hcon with h | h
      · exact hne1 h
      · exact hne1 h)]
    rw [Finset.inter_self, Finset.union_self]
    have hcard : 0 < (pySplitWs t.data).toFinset.card := by
      rcases Finset.eq_empty_or_nonempty (pySplitWs t.data).toFinset with h | h
      · exact absurd h hne1
      · exact Finset.card_pos.mpr h
    rw [if_pos hcard]
    rw [div_self]
    exact_mod_cast Nat.pos_iff_ne_zero.mp hcard

/-- C10: in both branches of `_calculate_similarity` — the
`difflib.SequenceMatcher.ratio()` branch and the Jaccard fallback — the
result lies in `[0, 1]`, and identical inputs (the empty string included)
score exactly 1.0.  These bounds are what keeps similarity-derived finding
confidences within the model's `[0, 1]` range. -/
theorem similarity_unit_range (difflibAvailable : Bool) (text1 text2 : String) :
    0 ≤ calcSimilarity difflibAvailable text1 text2 ∧
    calcSimilarity difflibAvailable text1 text2 ≤ 1 ∧
    (text1 = text2 → calcSimilarity difflibAvailable text1 text2 = 1) := by
  unfold calcSimilarity
  cases difflibAvailable with
  | false =>
    simp only [Bool.false_eq_true, if_neg, if_false]
    exact ⟨jaccardSimilarity_nonneg _ _, jaccardSimilarity_le_one _ _,
      fun h => h ▸ jaccardSimilarity_self _⟩
  | true =>
    simp only [if_true]
    exact ⟨seqMatcherScore_nonneg _ _, seqMatcherScore_le_one _ _,
      fun h => h ▸ seqMatcherScore_self _⟩

/-- Witness for C10: the bounds and the identity case of
`similarity_unit_range` instantiated at concrete strings in both branches,
with the empty-string case included. -/
theorem similarity_unit_range_witness :
    0 ≤ calcSimilarity true "abc def" "xyz" ∧
    calcSimilarity false "abc def" "xyz" ≤ 1 ∧
    calcSimilarity true "abc def" "abc def" = 1 ∧
    calcSimilarity false "abc def" "abc def" = 1 ∧
    calcSimilarity true "" "" = 1 ∧
    calcSimilarity false "" "" = 1 :=
  ⟨(similarity_unit_range true "abc def" "xyz").1,
    (similarity_unit_range false "abc def" "xyz").2.1,
    (similarity_unit_range true "abc def" "abc def").2.2 rfl,
    (similarity_unit_range false "abc def" "abc def").2.2 rfl,
    (similarity_unit_range true "" "").2.2 rfl,
    (similarity_unit_range false "" "").2.2 rfl⟩

/-! ### `DuplicationAnalyzer._normalize_code` (duplication_analyzer.py 452-472)

The Python body is a pipeline of `re.sub` calls; each substitution is
embedded directly as a character-list transformation with the same
leftmost, non-overlapping semantics:

1. `#.*$` (MULTILINE) → delete from each `#` to its line end;
2. `//.*$` (MULTILINE) → likewise for `//`;
3. `/\*.*?\*/` (DOTALL, non-greedy) → delete each block comment up to the
   nearest following `*/`;
4. `\s+` → a single space per whitespace run;
5. `\b[a-zA-Z_][a-zA-Z0-9_]*\b` → `VAR` (a maximal word run starting with a
   letter or underscore; runs starting with a digit offer no word boundary
   inside, so they are left alone);
6. `"[^"]*"` → `"STRING"`;
7. `'[^']*'` → `'STRING'`;
8. `\b\d+\b` → `NUM` (a maximal word run consisting solely of digits);
finally `str.strip()`. -/

def stripHashComments : List Char → List Char
  | [] => []
  | c :: rest =>
    if c = '#' then stripHashComments (rest.dropWhile (fun d => d ≠ '\n'))
    else c :: stripHashComments rest
termination_by l => l.length
decreasing_by
  · have : (rest.dropWhile (fun d => d ≠ '\n')).length ≤ rest.length :=
      List.Sublist.length_le (List.dropWhile_sublist _)
    simp only [List.length_cons]
    omega
  · simp only [List.length_cons]
    omega

def stripSlashComments : List Char → List Char
  | [] => []
  | [c] => [c]
  | c :: d :: rest =>
    if c = '/' ∧ d = '/' then stripSlashComments (rest.dropWhile (fun e => e ≠ '\n'))
    else c :: stripSlashComments (d :: rest)
termination_by l => l.length
decreasing_by
  · have : (rest.dropWhile (fun e => e ≠ '\n')).length ≤ rest.length :=
      List.Sublist.length_le (List.dropWhile_sublist _)
    simp only [List.length_cons]
    omega
  · simp only [List.length_cons]
    omega

/-- Scan past the first `*/`, returning the remainder after it. -/
def pastBlockClose : List Char → Option (List Char)
  | [] => none
  | [_] => none
  | c :: d :: rest =>
    if c = '*' ∧ d = '/' then some rest
    else pastBlockClose (d :: rest)

lemma pastBlockClose_length {l r : List Char} (h : pastBlockClose l = some r) :
    r.length < l.length := by
  induction l with
  | nil => simp [pastBlockClose] at h
  | cons c rest ih =>
    cases rest with
    | nil => simp [pastBlockClose] at h
    | cons d rest2 =>
      rw [pastBlockClose] at h
      split at h
      · cases h
        simp
        omega
      · have := ih h
        simp at this ⊢
        omega

def stripBlockComments : List Char → List Char
  | [] => []
  | [c] => [c]
  | c :: d :: rest =>
    if hcd : c = '/' ∧ d = '*' then
      match hpast : pastBlockClose rest with
      | some rem => stripBlockComments rem
      | none => c :: d :: rest
    else c :: stripBlockComments (d :: rest)
termination_by l => l.length
decreasing_by
  · have := pastBlockClose_length hpast
    simp only [List.length_cons]
    omega
  · simp only [List.length_cons]
    omega

def collapseWs : List Char → List Char
  | [] => []
  | c :: rest =>
    if pyWhitespace c then ' ' :: collapseWs (rest.dropWhile pyWhitespace)
    else c :: collapseWs rest
termination_by l => l.length
decreasing_by
  · have : (rest.dropWhile pyWhitespace).length ≤ rest.length :=
      List.Sublist.length_le (List.dropWhile_sublist _)
    simp only [List.length_cons]
    omega
  · simp only [List.length_cons]
    omega

def replaceIdents : List Char → List Char
  | [] => []
  | c :: rest =>
    if wordStartChar c then
      'V' :: 'A' :: 'R' :: replaceIdents (rest.dropWhile wordChar)
    else if wordChar c then
      (c :: rest.takeWhile wordChar) ++ replaceIdents (rest.dropWhile wordChar)
    else c :: replaceIdents rest
termination_by l => l.length
decreasing_by
  · have : (rest.dropWhile wordChar).length ≤ rest.length :=
      List.Sublist.length_le (List.dropWhile_sublist _)
    simp only [List.length_cons]
    omega
  · have : (rest.dropWhile wordChar).length ≤ rest.length :=
      List.Sublist.length_le (List.dropWhile_sublist _)
    simp only [List.length_cons]
    omega
  · simp only [List.length_cons]
    omega

def replaceQuoted (q : Char) (replacement : List Char) : List Char → List Char
  | [] => []
  | c :: rest =>
    if c = q then
      if (rest.dropWhile (fun d => d ≠ q)).isEmpty then
        c :: replaceQuoted q replacement rest
      else
        (q :: replacement ++ [q]) ++
          replaceQuoted q replacement ((rest.dropWhile (fun d => d ≠ q)).tail)
    else c :: replaceQuoted q replacement rest
termination_by l => l.length
decreasing_by
  · simp only [List.length_cons]
    omega
  · have h1 : (rest.dropWhile (fun d => d ≠ q)).length ≤ rest.length :=
      List.Sublist.length_le (List.dropWhile_sublist _)
    have h2 : ((rest.dropWhile (fun d => d ≠ q)).tail).length ≤
        (rest.dropWhile (fun d => d ≠ q)).length :=
      List.Sublist.length_le (List.tail_sublist _)
    simp only [List.length_cons]
    omega
  · simp only [List.length_cons]
    omega

/-- `"[^"]*"` → `"STRING"`. -/
def replaceDq (l : List Char) : List Char :=
  replaceQuoted '"' "STRING".data l

/-- `'[^']*'` → `'STRING'`. -/
def replaceSq (l : List Char) : List Char :=
  replaceQuoted '\'' "STRING".data l

def replaceNums : List Char → List Char
  | [] => []
  | c :: rest =>
    if wordChar c then
      (if (c :: rest.takeWhile wordChar).all Char.isDigit then "NUM".data
        else c :: rest.takeWhile wordChar) ++ replaceNums (rest.dropWhile wordChar)
    else c :: replaceNums rest
termination_by l => l.length
decreasing_by
  · have : (rest.dropWhile wordChar).length ≤ rest.length :=
      List.Sublist.length_le (List.dropWhile_sublist _)
    simp only [List.length_cons]
    omega
  · simp only [List.length_cons]
    omega

/-- Python `str.strip()` on a character list. -/
def stripEnds (l : List Char) : List Char :=
  ((l.dropWhile pyWhitespace).reverse.dropWhile pyWhitespace).reverse

/-- `DuplicationAnalyzer._normalize_code`. -/
def normalizeCode (code : String) : String :=
  String.mk (stripEnds (replaceNums (replaceSq (replaceDq (replaceIdents
    (collapseWs (stripBlockComments (stripSlashComments
      (stripHashComments code.data)))))))))

lemma seqMatcherScore_lt_one (a b : List Char) (h : a.length ≠ b.length) :
    seqMatcherScore a b < 1 := by
  unfold seqMatcherScore
  have ht : a.length + b.length ≠ 0 := by omega
  rw [if_neg ht]
  have htpos : 0 < a.length + b.length := Nat.pos_of_ne_zero ht
  rw [div_lt_one (by exact_mod_cast htpos)]
  have hle := ratcliffTotal_le a b
  have hlt : 2 * ratcliffTotal a b < a.length + b.length := by omega
  exact_mod_cast hlt

/-- C4 counterexample: two blocks that differ only in the value of one
string literal (`"ab"` versus `"a#b"`) do not normalize to the same string:
the comment-stripping pass runs before string-literal normalization, so the
`#` inside the second literal is treated as a comment start and the rest of
the line is deleted, leaving an unclosed quote.  The normalized forms are
`VAR = "STRING"` and `VAR = "VAR`, and their `SequenceMatcher` similarity is
strictly below 1. -/
theorem normalize_literal_value_counterexample :
    normalizeCode "x = \"ab\"" = "VAR = \"STRING\"" ∧
    normalizeCode "x = \"a#b\"" = "VAR = \"VAR" ∧
    normalizeCode "x = \"ab\"" ≠ normalizeCode "x = \"a#b\"" ∧
    calcSimilarity true (normalizeCode "x = \"ab\"") (normalizeCode "x = \"a#b\"") < 1 := by
  have h1 : normalizeCode "x = \"ab\"" = "VAR = \"STRING\"" := by
    simp +decide [normalizeCode, stripHashComments, stripSlashComments,
      stripBlockComments, collapseWs, replaceIdents, replaceQuoted, replaceDq,
      replaceSq, replaceNums, stripEnds, pyWhitespace, wordChar, wordStartChar,
      List.dropWhile_cons, List.takeWhile_cons, String.ext_iff]
  have h2 : normalizeCode "x = \"a#b\"" = "VAR = \"VAR" := by
    simp +decide [normalizeCode, stripHashComments, stripSlashComments,
      stripBlockComments, collapseWs, replaceIdents, replaceQuoted, replaceDq,
      replaceSq, replaceNums, stripEnds, pyWhitespace, wordChar, wordStartChar,
      List.dropWhile_cons, List.takeWhile_cons, String.ext_iff]
  refine ⟨h1, h2, ?_, ?_⟩
  · rw [h1, h2]
    decide
  · rw [h1, h2]
    have hcs : calcSimilarity true "VAR = \"STRING\"" "VAR = \"VAR" =
        seqMatcherScore "VAR = \"STRING\"".data "VAR = \"VAR".data := by
      simp [calcSimilarity]
    rw [hcs]
    apply seqMatcherScore_lt_one
    decide

/-! ### Code blocks that differ only in identifier names and literal values

To state the repaired version of the normalization claim, a pair of blocks
"differing only in identifier names and string/numeric literal values" is
modelled as two instantiations of a common token skeleton: shared
punctuation and spacing, with identifier, string-literal and numeric-literal
slots filled independently.  Literal values are restricted to alphanumeric
text — the counterexample above shows the claim fails without such a
restriction (a `#`, `/`, quote or whitespace inside a literal changes how
the comment/whitespace/string passes cut the text). -/

/-- An ASCII letter or digit. -/
def alnumChar (c : Char) : Bool := (c.isAlpha ∧ c.toNat < 128) ∨ c.isDigit

inductive NTok where
  | sym (c : Char)
  | sp
  | ident (s : String)
  | strLit (dq : Bool) (s : String)
  | numLit (s : String)
  deriving DecidableEq, Repr

def renderTok : NTok → List Char
  | .sym c => [c]
  | .sp => [' ']
  | .ident s => s.data
  | .strLit true s => '"' :: (s.data ++ ['"'])
  | .strLit false s => '\'' :: (s.data ++ ['\''])
  | .numLit s => s.data

def renderToks (ts : List NTok) : List Char := (ts.map renderTok).flatten

/-- Per-token content constraints: `sym` is a shared punctuation character
(not a word character, quote, comment starter or whitespace); identifiers
are nonempty word runs starting with a letter or underscore; literal
contents are alphanumeric; numeric literals are nonempty digit runs. -/
def validTok : NTok → Bool
  | .sym c => (¬wordChar c) ∧ c ≠ '"' ∧ c ≠ '\'' ∧ c ≠ '#' ∧ c ≠ '/' ∧ ¬pyWhitespace c
  | .sp => true
  | .ident s =>
      (match s.data with
        | [] => false
        | h :: _ => wordStartChar h) && s.data.all wordChar
  | .strLit _ s => s.data.all alnumChar
  | .numLit s => (¬s.data.isEmpty) ∧ s.data.all Char.isDigit

def wordishTok : NTok → Bool
  | .ident _ => true
  | .numLit _ => true
  | _ => false

def spTok : NTok → Bool
  | .sp => true
  | _ => false

/-- A well-formed skeleton instantiation: every token valid, no two
adjacent word-run tokens (they would merge into one word), no two adjacent
spaces (they would collapse into one). -/
def wfToks : List NTok → Bool
  | [] => true
  | [t] => validTok t
  | t :: u :: rest =>
      validTok t ∧ ¬(wordishTok t ∧ wordishTok u) ∧ ¬(spTok t ∧ spTok u) ∧
        wfToks (u :: rest)

/-- Two tokens fill the same skeleton slot: equal punctuation, both spaces,
both identifiers, string literals with the same quote kind, or both numeric
literals — the values themselves are free. -/
def sameShape : NTok → NTok → Bool
  | .sym c, .sym d => c = d
  | .sp, .sp => true
  | .ident _, .ident _ => true
  | .strLit q _, .strLit q2 _ => q = q2
  | .numLit _, .numLit _ => true
  | _, _ => false

/-- The effect of the identifier pass on one isolated word run. -/
def identRun (l : List Char) : List Char :=
  match l with
  | [] => []
  | h :: _ => if wordStartChar h then "VAR".data else l

/-- A token's text after the identifier pass. -/
def tok5 : NTok → List Char
  | .sym c => [c]
  | .sp => [' ']
  | .ident _ => "VAR".data
  | .strLit true s => '"' :: (identRun s.data ++ ['"'])
  | .strLit false s => '\'' :: (identRun s.data ++ ['\''])
  | .numLit s => s.data

/-- A token's text after the double-quote pass. -/
def tok6 : NTok → List Char
  | .strLit true _ => "\"STRING\"".data
  | t => tok5 t

/-- A token's text after the single-quote pass. -/
def tok7 : NTok → List Char
  | .strLit false _ => "'STRING'".data
  | t => tok6 t

/-- A token's final normalized text, depending only on the skeleton slot. -/
def canonTok : NTok → List Char
  | .sym c => [c]
  | .sp => [' ']
  | .ident _ => "VAR".data
  | .strLit true _ => "\"STRING\"".data
  | .strLit false _ => "'STRING'".data
  | .numLit _ => "NUM".data

lemma wordChar_not_ws {c : Char} (h : wordChar c = true) :
    pyWhitespace c = false := by
  cases hws : pyWhitespace c
  · rfl
  · exfalso
    unfold pyWhitespace at hws
    unfold wordChar at h
    rcases of_decide_eq_true hws with h1 | h1 | h1 | h1 | h1 | h1 <;>
      subst h1 <;> revert h <;> decide

lemma wordChar_not_special {c : Char} (h : wordChar c = true) :
    c ≠ '"' ∧ c ≠ '\'' ∧ c ≠ '#' ∧ c ≠ '/' := by
  refine ⟨?_, ?_, ?_, ?_⟩ <;>
    (rintro rfl; revert h; decide)

lemma alnumChar_word {c : Char} (h : alnumChar c = true) : wordChar c = true := by
  unfold alnumChar at h
  unfold wordChar
  rcases of_decide_eq_true h with h1 | h1
  · exact decide_eq_true (Or.inl h1)
  · exact decide_eq_true (Or.inr (Or.inl h1))

lemma isDigit_word {c : Char} (h : c.isDigit = true) : wordChar c = true := by
  unfold wordChar
  exact decide_eq_true (Or.inr (Or.inl h))

lemma isDigit_not_wordStart {c : Char} (h : c.isDigit = true) :
    wordStartChar c = false := by
  cases hws : wordStartChar c
  · rfl
  · exfalso
    unfold wordStartChar at hws
    rcases of_decide_eq_true hws with ⟨h1, _⟩ | h1
    · simp [Char.isDigit, Char.isAlpha, Char.isUpper, Char.isLower, Char.le_def,
        UInt32.le_def, Fin.le_def, BitVec.le_def] at h h1
      omega
    · subst h1
      simp [Char.isDigit] at h

lemma wordStartChar_word {c : Char} (h : wordStartChar c = true) :
    wordChar c = true := by
  unfold wordStartChar at h
  unfold wordChar
  rcases of_decide_eq_true h with h1 | h1
  · exact decide_eq_true (Or.inl h1)
  · exact decide_eq_true (Or.inr (Or.inr h1))

/-! Unfolding equations for the well-founded normalization passes. -/

lemma stripHashComments_cons (c : Char) (rest : List Char) :
    stripHashComments (c :: rest) =
      if c = '#' then stripHashComments (rest.dropWhile (fun d => d ≠ '\n'))
      else c :: stripHashComments rest := by
  simp only [stripHashComments]

lemma stripSlashComments_two (c d : Char) (rest : List Char) :
    stripSlashComments (c :: d :: rest) =
      if c = '/' ∧ d = '/' then
        stripSlashComments (rest.dropWhile (fun e => e ≠ '\n'))
      else c :: stripSlashComments (d :: rest) := by
  simp only [stripSlashComments]

lemma stripBlockComments_two (c d : Char) (rest : List Char) (h : ¬(c = '/' ∧ d = '*')) :
    stripBlockComments (c :: d :: rest) = c :: stripBlockComments (d :: rest) := by
  rw [stripBlockComments]
  rw [dif_neg h]

lemma collapseWs_cons (c : Char) (rest : List Char) :
    collapseWs (c :: rest) =
      if pyWhitespace c then ' ' :: collapseWs (rest.dropWhile pyWhitespace)
      else c :: collapseWs rest := by
  simp only [collapseWs]

lemma replaceIdents_cons (c : Char) (rest : List Char) :
    replaceIdents (c :: rest) =
      if wordStartChar c then
        'V' :: 'A' :: 'R' :: replaceIdents (rest.dropWhile wordChar)
      else if wordChar c then
        (c :: rest.takeWhile wordChar) ++ replaceIdents (rest.dropWhile wordChar)
      else c :: replaceIdents rest := by
  simp only [replaceIdents]

lemma replaceQuoted_cons (q : Char) (rep : List Char) (c : Char) (rest : List Char) :
    replaceQuoted q rep (c :: rest) =
      if c = q then
        if (rest.dropWhile (fun d => d ≠ q)).isEmpty then
          c :: replaceQuoted q rep rest
        else
          (q :: rep ++ [q]) ++
            replaceQuoted q rep ((rest.dropWhile (fun d => d ≠ q)).tail)
      else c :: replaceQuoted q rep rest := by
  simp only [replaceQuoted]

lemma replaceNums_cons (c : Char) (rest : List Char) :
    replaceNums (c :: rest) =
      if wordChar c then
        (if (c :: rest.takeWhile wordChar).all Char.isDigit then "NUM".data
          else c :: rest.takeWhile wordChar) ++ replaceNums (rest.dropWhile wordChar)
      else c :: replaceNums rest := by
  simp only [replaceNums]

/-- The head of `l` (when any) fails `p`. -/
def headSat (p : Char → Bool) : List Char → Prop
  | [] => True
  | c :: _ => p c = false

lemma dropWhile_of_headSat {p : Char → Bool} {l : List Char} (h : headSat p l) :
    l.dropWhile p = l := by
  cases l with
  | nil => rfl
  | cons c rest =>
    unfold headSat at h
    simp [List.dropWhile_cons, h]

lemma takeWhile_of_headSat {p : Char → Bool} {l : List Char} (h : headSat p l) :
    l.takeWhile p = [] := by
  cases l with
  | nil => rfl
  | cons c rest =>
    unfold headSat at h
    simp [List.takeWhile_cons, h]

/-! Identity of the comment passes on text without `#` or `/`. -/

lemma stripHashComments_id {l : List Char} (h : ∀ c ∈ l, ¬c = '#') :
    stripHashComments l = l := by
  induction l with
  | nil => simp [stripHashComments]
  | cons c rest ih =>
    rw [stripHashComments_cons, if_neg (h c (List.mem_cons_self _ _))]
    rw [ih (fun d hd => h d (List.mem_cons_of_mem _ hd))]

lemma stripSlashComments_id {l : List Char} (h : ∀ c ∈ l, ¬c = '/') :
    stripSlashComments l = l := by
  induction l using stripSlashComments.induct with
  | case1 => simp [stripSlashComments]
  | case2 c => simp [stripSlashComments]
  | case3 c d rest hcd ih =>
    exact absurd hcd.1 (h c (List.mem_cons_self _ _))
  | case4 c d rest hcd ih =>
    rw [stripSlashComments_two, if_neg hcd]
    rw [ih (fun e he => h e (List.mem_cons_of_mem _ he))]

lemma stripBlockComments_id {l : List Char} (h : ∀ c ∈ l, ¬c = '/') :
    stripBlockComments l = l := by
  induction l using stripBlockComments.induct with
  | case1 => simp [stripBlockComments]
  | case2 c => simp [stripBlockComments]
  | case3 c d rest hcd rem hrem ih =>
    exact absurd hcd.1 (h c (List.mem_cons_self _ _))
  | case4 c d rest hcd rem =>
    exact absurd hcd.1 (h c (List.mem_cons_self _ _))
  | case5 c d rest hcd ih =>
    rw [stripBlockComments_two _ _ _ hcd]
    rw [ih (fun e he => h e (List.mem_cons_of_mem _ he))]

/-! Facts about rendered well-formed token chunks. -/

lemma renderToks_nil : renderToks [] = [] := by
  simp [renderToks]

lemma renderToks_cons (t : NTok) (ts : List NTok) :
    renderToks (t :: ts) = renderTok t ++ renderToks ts := by
  simp [renderToks]

lemma wfToks_head_valid {t : NTok} {ts : List NTok} (h : wfToks (t :: ts) = true) :
    validTok t = true := by
  cases ts with
  | nil => exact h
  | cons u rest =>
    unfold wfToks at h
    exact (of_decide_eq_true h).1

lemma wfToks_tail {t : NTok} {ts : List NTok} (h : wfToks (t :: ts) = true) :
    wfToks ts = true := by
  cases ts with
  | nil => rfl
  | cons u rest =>
    unfold wfToks at h
    have := (of_decide_eq_true h).2.2.2
    exact this

lemma wfToks_not_adjacent_wordish {t u : NTok} {rest : List NTok}
    (h : wfToks (t :: u :: rest) = true) :
    ¬(wordishTok t = true ∧ wordishTok u = true) := by
  unfold wfToks at h
  have h2 := (of_decide_eq_true h).2.1
  intro hcon
  exact h2 (by simp [hcon.1, hcon.2])

lemma wfToks_not_adjacent_sp {t u : NTok} {rest : List NTok}
    (h : wfToks (t :: u :: rest) = true) :
    ¬(spTok t = true ∧ spTok u = true) := by
  unfold wfToks at h
  have h2 := (of_decide_eq_true h).2.2.1
  intro hcon
  exact h2 (by simp [hcon.1, hcon.2])

/-- Every character of a valid token's text is a word character, a quote,
or (for `sym`/`sp`) the token's own character; in particular it is never
`#` or `/`. -/
lemma renderTok_chars_not_comment {t : NTok} (h : validTok t = true) :
    ∀ c ∈ renderTok t, ¬c = '#' ∧ ¬c = '/' := by
  cases t with
  | sym c =>
    intro d hd
    rcases of_decide_eq_true h with ⟨_, _, _, h3, h4, _⟩
    simp [renderTok] at hd
    subst hd
    exact ⟨h3, h4⟩
  | sp =>
    intro d hd
    simp [renderTok] at hd
    subst hd
    refine ⟨by decide, by decide⟩
  | ident s =>
    intro d hd
    simp [renderTok] at hd
    have hall := ((Bool.and_eq_true _ _).mp h).2
    have hw : wordChar d = true := List.all_eq_true.mp hall d hd
    have := wordChar_not_special hw
    exact ⟨this.2.2.1, this.2.2.2⟩
  | strLit q s =>
    intro d hd
    have hall : s.data.all alnumChar = true := h
    cases q with
    | true =>
      simp [renderTok] at hd
      rcases hd with hd | hd | hd
      · subst hd; exact ⟨by decide, by decide⟩
      · have hw := alnumChar_word (List.all_eq_true.mp hall d hd)
        have := wordChar_not_special hw
        exact ⟨this.2.2.1, this.2.2.2⟩
      · subst hd; exact ⟨by decide, by decide⟩
    | false =>
      simp [renderTok] at hd
      rcases hd with hd | hd | hd
      · subst hd; exact ⟨by decide, by decide⟩
      · have hw := alnumChar_word (List.all_eq_true.mp hall d hd)
        have := wordChar_not_special hw
        exact ⟨this.2.2.1, this.2.2.2⟩
      · subst hd; exact ⟨by decide, by decide⟩
  | numLit s =>
    intro d hd
    simp [renderTok] at hd
    have hall := (of_decide_eq_true h).2
    have hw := isDigit_word (List.all_eq_true.mp hall d hd)
    have := wordChar_not_special hw
    exact ⟨this.2.2.1, this.2.2.2⟩

lemma renderToks_chars_not_comment {ts : List NTok} (h : wfToks ts = true) :
    ∀ c ∈ renderToks ts, ¬c = '#' ∧ ¬c = '/' := by
  induction ts with
  | nil =>
    intro c hc
    rw [renderToks_nil] at hc
    cases hc
  | cons t rest ih =>
    intro c hc
    rw [renderToks_cons] at hc
    rcases List.mem_append.mp hc with hc | hc
    · exact renderTok_chars_not_comment (wfToks_head_valid h) c hc
    · exact ih (wfToks_tail h) c hc

/-- All characters of a non-space valid token are non-whitespace. -/
lemma renderTok_chars_not_ws {t : NTok} (h : validTok t = true)
    (hsp : spTok t = false) : ∀ c ∈ renderTok t, pyWhitespace c = false := by
  cases t with
  | sym c =>
    intro d hd
    rcases of_decide_eq_true h with ⟨_, _, _, _, _, h5⟩
    simp [renderTok] at hd
    subst hd
    simpa using h5
  | sp => cases hsp
  | ident s =>
    intro d hd
    simp [renderTok] at hd
    have hall := ((Bool.and_eq_true _ _).mp h).2
    exact wordChar_not_ws (List.all_eq_true.mp hall d hd)
  | strLit q s =>
    intro d hd
    have hall : s.data.all alnumChar = true := h
    cases q with
    | true =>
      simp [renderTok] at hd
      rcases hd with hd | hd | hd
      · subst hd; decide
      · exact wordChar_not_ws (alnumChar_word (List.all_eq_true.mp hall d hd))
      · subst hd; decide
    | false =>
      simp [renderTok] at hd
      rcases hd with hd | hd | hd
      · subst hd; decide
      · exact wordChar_not_ws (alnumChar_word (List.all_eq_true.mp hall d hd))
      · subst hd; decide
  | numLit s =>
    intro d hd
    simp [renderTok] at hd
    have hall := (of_decide_eq_true h).2
    exact wordChar_not_ws (isDigit_word (List.all_eq_true.mp hall d hd))

/-- The rendered text of a well-formed list whose head is not a space
begins (when nonempty) with a non-whitespace character. -/
lemma renderToks_headSat_ws {ts : List NTok} (h : wfToks ts = true)
    (hsp : ∀ u us, ts = u :: us → spTok u = false) :
    headSat pyWhitespace (renderToks ts) := by
  cases ts with
  | nil =>
    rw [renderToks_nil]
    trivial
  | cons u us =>
    rw [renderToks_cons]
    have hv := wfToks_head_valid h
    have hchars := renderTok_chars_not_ws hv (hsp u us rfl)
    cases hr : renderTok u with
    | nil =>
      exfalso
      cases u with
      | sym c => simp [renderTok] at hr
      | sp => simp [renderTok] at hr
      | ident s =>
        have hh := ((Bool.and_eq_true _ _).mp hv).1
        simp [renderTok] at hr
        rw [hr] at hh
        simp at hh
      | strLit q s => cases q <;> simp [renderTok] at hr
      | numLit s =>
        have hh := (of_decide_eq_true hv).1
        simp [renderTok] at hr
        rw [hr] at hh
        simp at hh
    | cons c cs =>
      have : pyWhitespace c = false := by
        apply hchars
        rw [hr]
        exact List.mem_cons_self _ _
      unfold headSat
      simpa using this

lemma collapseWs_append {w r : List Char} (hw : ∀ c ∈ w, pyWhitespace c = false) :
    collapseWs (w ++ r) = w ++ collapseWs r := by
  induction w with
  | nil => simp
  | cons c cs ih =>
    rw [List.cons_append, collapseWs_cons,
      if_neg (by simp [hw c (List.mem_cons_self _ _)])]
    rw [ih (fun d hd => hw d (List.mem_cons_of_mem _ hd))]
    rfl

/-- Pass 4 (`\s+` → one space) leaves a well-formed rendering unchanged:
all whitespace is single spaces with non-whitespace on both sides. -/
lemma collapseWs_renderToks {ts : List NTok} (h : wfToks ts = true) :
    collapseWs (renderToks ts) = renderToks ts := by
  induction ts with
  | nil =>
    rw [renderToks_nil]
    simp [collapseWs]
  | cons t rest ih =>
    rw [renderToks_cons]
    by_cases hsp : spTok t = true
    · have ht : t = .sp := by
        cases t <;> simp [spTok] at hsp ⊢
      subst ht
      show collapseWs (' ' :: renderToks rest) = ' ' :: renderToks rest
      rw [collapseWs_cons, if_pos (by decide)]
      have hhead : headSat pyWhitespace (renderToks rest) := by
        apply renderToks_headSat_ws (wfToks_tail h)
        intro u us hus
        subst hus
        have := wfToks_not_adjacent_sp h
        cases hu : spTok u
        · rfl
        · exact absurd ⟨rfl, hu⟩ this
      rw [dropWhile_of_headSat hhead, ih (wfToks_tail h)]
    · have hw := renderTok_chars_not_ws (wfToks_head_valid h)
        (by simpa using hsp)
      rw [collapseWs_append hw, ih (wfToks_tail h)]

lemma dropWhile_append_all {p : Char → Bool} {w r : List Char}
    (hw : ∀ c ∈ w, p c = true) : (w ++ r).dropWhile p = r.dropWhile p := by
  induction w with
  | nil => simp
  | cons c cs ih =>
    rw [List.cons_append, List.dropWhile_cons, if_pos (hw c (List.mem_cons_self _ _))]
    exact ih (fun d hd => hw d (List.mem_cons_of_mem _ hd))

lemma takeWhile_append_all {p : Char → Bool} {w r : List Char}
    (hw : ∀ c ∈ w, p c = true) : (w ++ r).takeWhile p = w ++ r.takeWhile p := by
  induction w with
  | nil => simp
  | cons c cs ih =>
    rw [List.cons_append, List.takeWhile_cons, if_pos (hw c (List.mem_cons_self _ _))]
    rw [ih (fun d hd => hw d (List.mem_cons_of_mem _ hd))]
    rfl

lemma notWordChar_notStart {c : Char} (h : wordChar c = false) :
    wordStartChar c = false := by
  cases hs : wordStartChar c
  · rfl
  · rw [wordStartChar_word hs] at h
    cases h

lemma replaceIdents_nonword {c : Char} {r : List Char} (h : wordChar c = false) :
    replaceIdents (c :: r) = c :: replaceIdents r := by
  rw [replaceIdents_cons, if_neg (by simp [notWordChar_notStart h]),
    if_neg (by simp [h])]

lemma replaceIdents_run_letter {h : Char} {w r : List Char}
    (hh : wordStartChar h = true) (hw : ∀ c ∈ w, wordChar c = true)
    (hr : headSat wordChar r) :
    replaceIdents ((h :: w) ++ r) = "VAR".data ++ replaceIdents r := by
  rw [List.cons_append, replaceIdents_cons, if_pos hh]
  rw [dropWhile_append_all hw, dropWhile_of_headSat hr]
  rfl

lemma replaceIdents_run_digit {h : Char} {w r : List Char}
    (hh : wordChar h = true) (hhs : wordStartChar h = false)
    (hw : ∀ c ∈ w, wordChar c = true) (hr : headSat wordChar r) :
    replaceIdents ((h :: w) ++ r) = (h :: w) ++ replaceIdents r := by
  rw [List.cons_append, replaceIdents_cons, if_neg (by simp [hhs]),
    if_pos hh]
  rw [takeWhile_append_all hw, takeWhile_of_headSat hr,
    dropWhile_append_all hw, dropWhile_of_headSat hr]
  simp

/-- The rendered text of a well-formed list whose head token is not a word
run begins (when nonempty) with a non-word character. -/
lemma renderToks_headSat_word {ts : List NTok} (h : wfToks ts = true)
    (hw : ∀ u us, ts = u :: us → wordishTok u = false) :
    headSat wordChar (renderToks ts) := by
  cases ts with
  | nil =>
    rw [renderToks_nil]
    trivial
  | cons u us =>
    rw [renderToks_cons]
    have hv := wfToks_head_valid h
    have hnw := hw u us rfl
    cases u with
    | sym c =>
      have h1 := (of_decide_eq_true hv).1
      show headSat wordChar ([c] ++ renderToks us)
      unfold headSat
      simpa using h1
    | sp =>
      show headSat wordChar ([' '] ++ renderToks us)
      exact (by decide : wordChar ' ' = false)
    | ident s => simp [wordishTok] at hnw
    | numLit s => simp [wordishTok] at hnw
    | strLit q s =>
      cases q with
      | true =>
        show headSat wordChar (('"' :: (s.data ++ ['"'])) ++ renderToks us)
        exact (by decide : wordChar '"' = false)
      | false =>
        show headSat wordChar (('\'' :: (s.data ++ ['\''])) ++ renderToks us)
        exact (by decide : wordChar '\'' = false)

/-- For a valid string-literal content, a nonempty head is either a letter
(start of an identifier-shaped run) or a digit. -/
lemma alnum_head_cases {hc : Char} (h : alnumChar hc = true) :
    wordStartChar hc = true ∨ (wordChar hc = true ∧ wordStartChar hc = false) := by
  cases hs : wordStartChar hc
  · exact Or.inr ⟨alnumChar_word h, rfl⟩
  · exact Or.inl rfl

/-- Pass 5 on a well-formed rendering: every identifier-shaped word run
(including letter-headed string contents) becomes `VAR`, digit-headed runs
survive. -/
lemma replaceIdents_renderToks {ts : List NTok} (h : wfToks ts = true) :
    replaceIdents (renderToks ts) = (ts.map tok5).flatten := by
  induction ts with
  | nil =>
    rw [renderToks_nil]
    simp [replaceIdents]
  | cons t rest ih =>
    have hv := wfToks_head_valid h
    have htail := wfToks_tail h
    have hheadword : headSat wordChar (renderToks rest) → True := fun _ => trivial
    have hnextword : wordishTok t = true → headSat wordChar (renderToks rest) := by
      intro hwt
      apply renderToks_headSat_word htail
      intro u us hus
      subst hus
      have := wfToks_not_adjacent_wordish h
      cases hu : wordishTok u
      · rfl
      · exact absurd ⟨hwt, hu⟩ this
    rw [renderToks_cons, List.map_cons, List.flatten_cons]
    cases t with
    | sym c =>
      have h1 := (of_decide_eq_true hv).1
      show replaceIdents ([c] ++ renderToks rest) = tok5 (.sym c) ++ _
      rw [List.singleton_append, replaceIdents_nonword (by simpa using h1),
        ih htail]
      rfl
    | sp =>
      show replaceIdents ([' '] ++ renderToks rest) = tok5 .sp ++ _
      rw [List.singleton_append, replaceIdents_nonword (by decide), ih htail]
      rfl
    | ident s =>
      have hparts := (Bool.and_eq_true _ _).mp hv
      have hall : ∀ c ∈ s.data, wordChar c = true :=
        fun c hc => List.all_eq_true.mp hparts.2 c hc
      cases hdata : s.data with
      | nil =>
        rw [hdata] at hparts
        simp at hparts
      | cons hc w =>
        have hhstart : wordStartChar hc = true := by
          have := hparts.1
          rw [hdata] at this
          exact this
        show replaceIdents (renderTok (.ident s) ++ renderToks rest) = _
        rw [show renderTok (.ident s) = s.data from rfl, hdata]
        rw [replaceIdents_run_letter hhstart
          (fun c hcmem => hall c (hdata ▸ List.mem_cons_of_mem _ hcmem))
          (hnextword rfl), ih htail]
        rfl
    | numLit s =>
      have hparts := of_decide_eq_true hv
      have hall : ∀ c ∈ s.data, Char.isDigit c = true :=
        fun c hc => List.all_eq_true.mp hparts.2 c hc
      cases hdata : s.data with
      | nil =>
        rw [hdata] at hparts
        simp at hparts
      | cons hc w =>
        have hdig : Char.isDigit hc = true := hall hc (hdata ▸ List.mem_cons_self _ _)
        show replaceIdents (renderTok (.numLit s) ++ renderToks rest) = _
        rw [show renderTok (.numLit s) = s.data from rfl, hdata]
        rw [replaceIdents_run_digit (isDigit_word hdig) (isDigit_not_wordStart hdig)
          (fun c hcmem => isDigit_word (hall c (hdata ▸ List.mem_cons_of_mem _ hcmem)))
          (hnextword rfl), ih htail]
        show (hc :: w) ++ _ = tok5 (.numLit s) ++ _
        rw [show tok5 (.numLit s) = s.data from rfl, hdata]
    | strLit q s =>
      have hall : ∀ c ∈ s.data, alnumChar c = true :=
        fun c hc => List.all_eq_true.mp hv c hc
      have hq : ∀ qc : Char, qc = '"' ∨ qc = '\'' → wordChar qc = false := by
        rintro qc (rfl | rfl) <;> decide
      -- name the quote character
      have main : ∀ qc : Char, wordChar qc = false →
          replaceIdents ((qc :: (s.data ++ [qc])) ++ renderToks rest) =
            (qc :: (identRun s.data ++ [qc])) ++ (rest.map tok5).flatten := by
        intro qc hqc
        rw [List.cons_append, replaceIdents_nonword hqc]
        cases hdata : s.data with
        | nil =>
          show qc :: replaceIdents ([qc] ++ renderToks rest) = _
          rw [List.singleton_append, replaceIdents_nonword hqc, ih htail]
          simp [identRun]
        | cons hc w =>
          have hhead : alnumChar hc = true := hall hc (hdata ▸ List.mem_cons_self _ _)
          have hwall : ∀ c ∈ w, wordChar c = true := fun c hcmem =>
            alnumChar_word (hall c (hdata ▸ List.mem_cons_of_mem _ hcmem))
          have hrheadSat : headSat wordChar ([qc] ++ renderToks rest) := by
            unfold headSat
            simpa using hqc
          rcases alnum_head_cases hhead with hstart | ⟨hword, hstart⟩
          · rw [show (hc :: w) ++ [qc] ++ renderToks rest =
              (hc :: w) ++ ([qc] ++ renderToks rest) by simp]
            rw [replaceIdents_run_letter hstart hwall hrheadSat]
            rw [List.singleton_append, replaceIdents_nonword hqc, ih htail]
            simp [identRun, hstart]
          · rw [show (hc :: w) ++ [qc] ++ renderToks rest =
              (hc :: w) ++ ([qc] ++ renderToks rest) by simp]
            rw [replaceIdents_run_digit hword hstart hwall hrheadSat]
            rw [List.singleton_append, replaceIdents_nonword hqc, ih htail]
            simp [identRun, hstart]
      cases q with
      | true =>
        show replaceIdents (('"' :: (s.data ++ ['"'])) ++ renderToks rest) = _
        rw [main '"' (by decide)]
        rfl
      | false =>
        show replaceIdents (('\'' :: (s.data ++ ['\''])) ++ renderToks rest) = _
        rw [main '\'' (by decide)]
        rfl

lemma replaceQuoted_append {q : Char} {rep w r : List Char}
    (hw : ∀ c ∈ w, ¬c = q) :
    replaceQuoted q rep (w ++ r) = w ++ replaceQuoted q rep r := by
  induction w with
  | nil => simp
  | cons c cs ih =>
    rw [List.cons_append, replaceQuoted_cons,
      if_neg (hw c (List.mem_cons_self _ _))]
    rw [ih (fun d hd => hw d (List.mem_cons_of_mem _ hd))]
    rfl

lemma replaceQuoted_quoted {q : Char} {rep inner r : List Char}
    (hin : ∀ c ∈ inner, ¬c = q) :
    replaceQuoted q rep ((q :: (inner ++ [q])) ++ r) =
      (q :: rep ++ [q]) ++ replaceQuoted q rep r := by
  rw [List.cons_append, replaceQuoted_cons, if_pos rfl]
  have hdrop : ((inner ++ [q]) ++ r).dropWhile (fun d => d ≠ q) = q :: r := by
    rw [List.append_assoc, dropWhile_append_all
      (fun c hc => decide_eq_true (hin c hc))]
    rw [List.singleton_append, List.dropWhile_cons, if_neg (by simp)]
  rw [hdrop]
  simp

/-- The characters that `identRun` can produce come from the original run
or from `VAR`. -/
lemma identRun_chars {l : List Char} :
    ∀ c ∈ identRun l, c ∈ l ∨ c ∈ "VAR".data := by
  intro c hc
  cases l with
  | nil => simp [identRun] at hc
  | cons h t =>
    rw [show identRun (h :: t) = if wordStartChar h then "VAR".data else h :: t
      from rfl] at hc
    split at hc
    · exact Or.inr hc
    · exact Or.inl hc

/-- A `tok5` chunk of a valid token other than a double-quoted literal
contains no `"`. -/
lemma tok5_no_dq {t : NTok} (hv : validTok t = true)
    (hne : ∀ s, t ≠ .strLit true s) : ∀ c ∈ tok5 t, ¬c = '"' := by
  cases t with
  | sym c =>
    intro d hd
    rcases of_decide_eq_true hv with ⟨_, h2, _, _, _, _⟩
    simp [tok5] at hd
    subst hd
    exact h2
  | sp =>
    intro d hd
    simp [tok5] at hd
    subst hd
    decide
  | ident s =>
    intro d hd
    simp [tok5] at hd
    rcases hd with rfl | rfl | rfl <;> decide
  | numLit s =>
    intro d hd
    simp [tok5] at hd
    have hall := (of_decide_eq_true hv).2
    have hw := isDigit_word (List.all_eq_true.mp hall d hd)
    exact (wordChar_not_special hw).1
  | strLit q s =>
    cases q with
    | true => exact absurd rfl (hne s)
    | false =>
      intro d hd
      have hall : s.data.all alnumChar = true := hv
      simp [tok5] at hd
      rcases hd with rfl | hd | rfl
      · decide
      · rcases identRun_chars d hd with hmem | hmem
        · exact (wordChar_not_special (alnumChar_word
            (List.all_eq_true.mp hall d hmem))).1
        · simp at hmem
          rcases hmem with rfl | rfl | rfl <;> decide
      · decide

/-- Pass 6: every double-quoted literal becomes `"STRING"`. -/
lemma replaceDq_tok5 {ts : List NTok} (h : wfToks ts = true) :
    replaceDq ((ts.map tok5).flatten) = (ts.map tok6).flatten := by
  induction ts with
  | nil => simp [replaceDq, replaceQuoted]
  | cons t rest ih =>
    have hv := wfToks_head_valid h
    have htail := wfToks_tail h
    rw [List.map_cons, List.flatten_cons, List.map_cons, List.flatten_cons]
    by_cases hdq : ∃ s, t = .strLit true s
    · rcases hdq with ⟨s, rfl⟩
      have hall : s.data.all alnumChar = true := hv
      have hin : ∀ c ∈ identRun s.data, ¬c = '"' := by
        intro c hc
        rcases identRun_chars c hc with hmem | hmem
        · exact (wordChar_not_special (alnumChar_word
            (List.all_eq_true.mp hall c hmem))).1
        · simp at hmem
          rcases hmem with rfl | rfl | rfl <;> decide
      show replaceDq (('"' :: (identRun s.data ++ ['"'])) ++ _) = _
      unfold replaceDq
      rw [replaceQuoted_quoted hin]
      rw [show replaceQuoted '"' "STRING".data ((rest.map tok5).flatten) =
        replaceDq ((rest.map tok5).flatten) from rfl, ih htail]
      rfl
    · have hne : ∀ s, t ≠ .strLit true s := by
        intro s hcon
        exact hdq ⟨s, hcon⟩
      unfold replaceDq
      rw [replaceQuoted_append (tok5_no_dq hv hne)]
      rw [show replaceQuoted '"' "STRING".data ((rest.map tok5).flatten) =
        replaceDq ((rest.map tok5).flatten) from rfl, ih htail]
      have : tok6 t = tok5 t := by
        cases t with
        | strLit q s =>
          cases q with
          | true => exact absurd rfl (hne s)
          | false => rfl
        | sym c => rfl
        | sp => rfl
        | ident s => rfl
        | numLit s => rfl
      rw [this]

/-- A `tok6` chunk of a valid token other than a single-quoted literal
contains no `'`. -/
lemma tok6_no_sq {t : NTok} (hv : validTok t = true)
    (hne : ∀ s, t ≠ .strLit false s) : ∀ c ∈ tok6 t, ¬c = '\'' := by
  cases t with
  | sym c =>
    intro d hd
    rcases of_decide_eq_true hv with ⟨_, _, h3, _, _, _⟩
    simp [tok6, tok5] at hd
    subst hd
    exact h3
  | sp =>
    intro d hd
    simp [tok6, tok5] at hd
    subst hd
    decide
  | ident s =>
    intro d hd
    simp [tok6, tok5] at hd
    rcases hd with rfl | rfl | rfl <;> decide
  | numLit s =>
    intro d hd
    simp [tok6, tok5] at hd
    have hall := (of_decide_eq_true hv).2
    have hw := isDigit_word (List.all_eq_true.mp hall d hd)
    exact (wordChar_not_special hw).2.1
  | strLit q s =>
    cases q with
    | false => exact absurd rfl (hne s)
    | true =>
      intro d hd
      simp [tok6] at hd
      rcases hd with rfl | rfl | rfl | rfl | rfl | rfl | rfl | rfl <;> decide

/-- Pass 7: every single-quoted literal becomes `'STRING'`. -/
lemma replaceSq_tok6 {ts : List NTok} (h : wfToks ts = true) :
    replaceSq ((ts.map tok6).flatten) = (ts.map tok7).flatten := by
  induction ts with
  | nil => simp [replaceSq, replaceQuoted]
  | cons t rest ih =>
    have hv := wfToks_head_valid h
    have htail := wfToks_tail h
    rw [List.map_cons, List.flatten_cons, List.map_cons, List.flatten_cons]
    by_cases hsq : ∃ s, t = .strLit false s
    · rcases hsq with ⟨s, rfl⟩
      have hall : s.data.all alnumChar = true := hv
      have hin : ∀ c ∈ identRun s.data, ¬c = '\'' := by
        intro c hc
        rcases identRun_chars c hc with hmem | hmem
        · exact (wordChar_not_special (alnumChar_word
            (List.all_eq_true.mp hall c hmem))).2.1
        · simp at hmem
          rcases hmem with rfl | rfl | rfl <;> decide
      show replaceSq (('\'' :: (identRun s.data ++ ['\''])) ++ _) = _
      unfold replaceSq
      rw [replaceQuoted_quoted hin]
      rw [show replaceQuoted '\'' "STRING".data ((rest.map tok6).flatten) =
        replaceSq ((rest.map tok6).flatten) from rfl, ih htail]
      rfl
    · have hne : ∀ s, t ≠ .strLit false s := by
        intro s hcon
        exact hsq ⟨s, hcon⟩
      unfold replaceSq
      rw [replaceQuoted_append (tok6_no_sq hv hne)]
      rw [show replaceQuoted '\'' "STRING".data ((rest.map tok6).flatten) =
        replaceSq ((rest.map tok6).flatten) from rfl, ih htail]
      have : tok7 t = tok6 t := by
        cases t with
        | strLit q s =>
          cases q with
          | false => exact absurd rfl (hne s)
          | true => rfl
        | sym c => rfl
        | sp => rfl
        | ident s => rfl
        | numLit s => rfl
      rw [this]

lemma replaceNums_nonword {c : Char} {r : List Char} (h : wordChar c = false) :
    replaceNums (c :: r) = c :: replaceNums r := by
  rw [replaceNums_cons, if_neg (by simp [h])]

lemma replaceNums_run {h : Char} {w r : List Char} (hh : wordChar h = true)
    (hw : ∀ c ∈ w, wordChar c = true) (hr : headSat wordChar r) :
    replaceNums ((h :: w) ++ r) =
      (if (h :: w).all Char.isDigit then "NUM".data else h :: w) ++ replaceNums r := by
  rw [List.cons_append, replaceNums_cons, if_pos hh]
  rw [takeWhile_append_all hw, takeWhile_of_headSat hr,
    dropWhile_append_all hw, dropWhile_of_headSat hr]
  simp

/-- The flattened `tok7` text of a well-formed list whose head token is not
a word run begins (when nonempty) with a non-word character. -/
lemma tok7_flatten_headSat_word {ts : List NTok} (h : wfToks ts = true)
    (hw : ∀ u us, ts = u :: us → wordishTok u = false) :
    headSat wordChar ((ts.map tok7).flatten) := by
  cases ts with
  | nil => trivial
  | cons u us =>
    rw [List.map_cons, List.flatten_cons]
    have hv := wfToks_head_valid h
    have hnw := hw u us rfl
    cases u with
    | sym c =>
      have h1 := (of_decide_eq_true hv).1
      show headSat wordChar ([c] ++ _)
      simpa [headSat] using h1
    | sp =>
      show headSat wordChar ([' '] ++ _)
      exact (by decide : wordChar ' ' = false)
    | ident s => simp [wordishTok] at hnw
    | numLit s => simp [wordishTok] at hnw
    | strLit q s =>
      cases q with
      | true =>
        show headSat wordChar ("\"STRING\"".data ++ _)
        exact (by decide : wordChar '"' = false)
      | false =>
        show headSat wordChar ("'STRING'".data ++ _)
        exact (by decide : wordChar '\'' = false)

/-- Pass 8: maximal digit runs become `NUM`; `VAR` and `STRING` survive. -/
lemma replaceNums_tok7 {ts : List NTok} (h : wfToks ts = true) :
    replaceNums ((ts.map tok7).flatten) = (ts.map canonTok).flatten := by
  induction ts with
  | nil => simp [replaceNums]
  | cons t rest ih =>
    have hv := wfToks_head_valid h
    have htail := wfToks_tail h
    have hnextword : wordishTok t = true →
        headSat wordChar ((rest.map tok7).flatten) := by
      intro hwt
      apply tok7_flatten_headSat_word htail
      intro u us hus
      subst hus
      have := wfToks_not_adjacent_wordish h
      cases hu : wordishTok u
      · rfl
      · exact absurd ⟨hwt, hu⟩ this
    rw [List.map_cons, List.flatten_cons, List.map_cons, List.flatten_cons]
    cases t with
    | sym c =>
      have h1 := (of_decide_eq_true hv).1
      show replaceNums ([c] ++ _) = [c] ++ _
      rw [List.singleton_append, List.singleton_append,
        replaceNums_nonword (by simpa using h1), ih htail]
    | sp =>
      show replaceNums ([' '] ++ _) = [' '] ++ _
      rw [List.singleton_append, List.singleton_append,
        replaceNums_nonword (by decide), ih htail]
    | ident s =>
      show replaceNums (('V' :: ['A', 'R']) ++ _) = "VAR".data ++ _
      rw [replaceNums_run (by decide) (by decide) (hnextword rfl)]
      rw [if_neg (by decide), ih htail]
    | numLit s =>
      have hparts := of_decide_eq_true hv
      have hall : ∀ c ∈ s.data, Char.isDigit c = true :=
        fun c hc => List.all_eq_true.mp hparts.2 c hc
      cases hdata : s.data with
      | nil =>
        rw [hdata] at hparts
        simp at hparts
      | cons hc w =>
        show replaceNums (tok7 (.numLit s) ++ _) = canonTok (.numLit s) ++ _
        rw [show tok7 (.numLit s) = s.data from rfl, hdata]
        rw [replaceNums_run (isDigit_word (hall hc (hdata ▸ List.mem_cons_self _ _)))
          (fun c hcmem => isDigit_word (hall c (hdata ▸ List.mem_cons_of_mem _ hcmem)))
          (hnextword rfl)]
        rw [if_pos (by
          apply List.all_eq_true.mpr
          intro c hcmem
          exact hall c (hdata ▸ hcmem))]
        rw [ih htail]
        rfl
    | strLit q s =>
      cases q with
      | true =>
        show replaceNums (('"' :: ("STRING".data ++ ['"'])) ++ _) =
          ('"' :: ("STRING".data ++ ['"'])) ++ _
        rw [List.cons_append, replaceNums_nonword (by decide)]
        rw [show ("STRING".data ++ ['"']) ++ (rest.map tok7).flatten =
          ('S' :: "TRING".data) ++ (['"'] ++ (rest.map tok7).flatten) by simp]
        rw [replaceNums_run (by decide) (by decide)
          (by exact (by decide : wordChar '"' = false))]
        rw [if_neg (by decide), List.singleton_append,
          replaceNums_nonword (by decide), ih htail]
        simp
      | false =>
        show replaceNums (('\'' :: ("STRING".data ++ ['\''])) ++ _) =
          ('\'' :: ("STRING".data ++ ['\''])) ++ _
        rw [List.cons_append, replaceNums_nonword (by decide)]
        rw [show ("STRING".data ++ ['\'']) ++ (rest.map tok7).flatten =
          ('S' :: "TRING".data) ++ (['\''] ++ (rest.map tok7).flatten) by simp]
        rw [replaceNums_run (by decide) (by decide)
          (by exact (by decide : wordChar '\'' = false))]
        rw [if_neg (by decide), List.singleton_append,
          replaceNums_nonword (by decide), ih htail]
        simp

/-- `_normalize_code` on a rendered well-formed skeleton instantiation is
the stripped concatenation of the per-slot canonical texts. -/
lemma normalizeCode_render {ts : List NTok} (h : wfToks ts = true) :
    normalizeCode (String.mk (renderToks ts)) =
      String.mk (stripEnds ((ts.map canonTok).flatten)) := by
  unfold normalizeCode
  rw [show (String.mk (renderToks ts)).data = renderToks ts from rfl]
  rw [stripHashComments_id (fun c hc => (renderToks_chars_not_comment h c hc).1),
    stripSlashComments_id (fun c hc => (renderToks_chars_not_comment h c hc).2),
    stripBlockComments_id (fun c hc => (renderToks_chars_not_comment h c hc).2),
    collapseWs_renderToks h, replaceIdents_renderToks h, replaceDq_tok5 h,
    replaceSq_tok6 h, replaceNums_tok7 h]

lemma canonTok_eq_of_sameShape {t u : NTok} (h : sameShape t u = true) :
    canonTok t = canonTok u := by
  cases t <;> cases u <;> simp [sameShape] at h <;> try rfl
  case sym.sym c d => subst h; rfl
  case strLit.strLit q1 s1 q2 s2 => subst h; cases q1 <;> rfl

lemma canon_flatten_eq {ts1 ts2 : List NTok}
    (h : List.Forall₂ (fun t u => sameShape t u = true) ts1 ts2) :
    (ts1.map canonTok).flatten = (ts2.map canonTok).flatten := by
  induction h with
  | nil => rfl
  | cons hrel _ ih =>
    rw [List.map_cons, List.flatten_cons, List.map_cons, List.flatten_cons,
      canonTok_eq_of_sameShape hrel, ih]

/-- C4 amended: for every pair of code blocks that are instantiations of a
common token skeleton — the same punctuation and spacing, with identifier
names and string/numeric literal values substituted freely, provided
identifiers are word runs, literal contents are alphanumeric (no comment
markers, quotes or whitespace inside a literal), and word runs or spaces
are not directly adjacent — `_normalize_code` maps both blocks to the
identical string, and therefore `_calculate_similarity` scores the pair 1.0
in both its `difflib` branch and its Jaccard fallback branch. -/
theorem normalize_rename_amended (ts1 ts2 : List NTok)
    (h1 : wfToks ts1 = true) (h2 : wfToks ts2 = true)
    (hs : List.Forall₂ (fun t u => sameShape t u = true) ts1 ts2) :
    normalizeCode (String.mk (renderToks ts1)) =
      normalizeCode (String.mk (renderToks ts2)) ∧
    calcSimilarity true (normalizeCode (String.mk (renderToks ts1)))
      (normalizeCode (String.mk (renderToks ts2))) = 1 ∧
    calcSimilarity false (normalizeCode (String.mk (renderToks ts1)))
      (normalizeCode (String.mk (renderToks ts2))) = 1 := by
  have heq : normalizeCode (String.mk (renderToks ts1)) =
      normalizeCode (String.mk (renderToks ts2)) := by
    rw [normalizeCode_render h1, normalizeCode_render h2, canon_flatten_eq hs]
  refine ⟨heq, ?_, ?_⟩
  · rw [heq]
    have hcs : ∀ x : String, calcSimilarity true x x = seqMatcherScore x.data x.data :=
      fun x => by simp [calcSimilarity]
    rw [hcs]
    exact seqMatcherScore_self _
  · rw [heq]
    have hcs : ∀ x : String, calcSimilarity false x x = jaccardSimilarity x x :=
      fun x => by simp [calcSimilarity]
    rw [hcs]
    exact jaccardSimilarity_self _

/-- First instantiation for the C4 witness: `x = "ab" + 12`. -/
def renameLeft : List NTok :=
  [.ident "x", .sp, .sym '=', .sp, .strLit true "ab", .sp, .sym '+', .sp,
    .numLit "12"]

/-- Second instantiation of the same skeleton: `count2 = "zq9" + 777`. -/
def renameRight : List NTok :=
  [.ident "count2", .sp, .sym '=', .sp, .strLit true "zq9", .sp, .sym '+', .sp,
    .numLit "777"]

/-- Witness for the C4 amended theorem: two concrete blocks differing only
in an identifier name, a string literal value and a numeric literal value
normalize identically and score similarity 1.0 in both branches. -/
theorem normalize_rename_amended_witness :
    wfToks renameLeft = true ∧ wfToks renameRight = true ∧
    List.Forall₂ (fun t u => sameShape t u = true) renameLeft renameRight ∧
    normalizeCode (String.mk (renderToks renameLeft)) =
      normalizeCode (String.mk (renderToks renameRight)) ∧
    calcSimilarity true (normalizeCode (String.mk (renderToks renameLeft)))
      (normalizeCode (String.mk (renderToks renameRight))) = 1 ∧
    calcSimilarity false (normalizeCode (String.mk (renderToks renameLeft)))
      (normalizeCode (String.mk (renderToks renameRight))) = 1 := by
  have h1 : wfToks renameLeft = true := by decide
  have h2 : wfToks renameRight = true := by decide
  have hs : List.Forall₂ (fun t u => sameShape t u = true) renameLeft renameRight := by
    decide
  exact ⟨h1, h2, hs, (normalize_rename_amended _ _ h1 h2 hs).1,
    (normalize_rename_amended _ _ h1 h2 hs).2.1,
    (normalize_rename_amended _ _ h1 h2 hs).2.2⟩

/-! ### `DuplicationAnalyzer._extract_code_blocks` and
`_analyze_exact_duplicates` (duplication_analyzer.py 63-114, 370-441)

Blocks are contiguous indentation-delimited line runs of at least
`min_duplicate_lines = 5` lines; `hashlib.md5` of the block content is
modelled by the content itself (the analyzer only compares digests for
equality).  Grouping by hash iterates a `defaultdict`; the embedding
enumerates the distinct hashes with `List.dedup` (which keeps the last
occurrence of each hash where the Python dict keeps insertion order — the
set of groups, their members and their member order are identical, only
the order in which groups are visited differs, and no claim concerns that
order). -/

structure RawBlock where
  content : String
  hash : String
  start_line : Nat
  end_line : Nat
  line_count : Nat
  file_path : String
  file_hash : String
  deriving DecidableEq, Repr

/-- Python `s.startswith(pat)`. -/
def pyStartsWith (pat s : String) : Bool :=
  List.isPrefixOf pat.data s.data

/-- Python `sep.join(parts)`. -/
def pyJoin (sep : String) : List String → String
  | [] => ""
  | [x] => x
  | x :: y :: rest => x ++ sep ++ pyJoin sep (y :: rest)

/-- One emitted block: content is the newline join of the collected lines,
the digest stands for `md5(content)`. -/
def mkBlock (path fhash : String) (blockLines : List String)
    (startIdx endIdx : Nat) : RawBlock :=
  let content := pyJoin "\n" blockLines
  { content := content
    hash := content
    start_line := startIdx + 1
    end_line := endIdx
    line_count := blockLines.length
    file_path := path
    file_hash := fhash }

/-- The loop of `_extract_code_blocks`: `i` is the running line index,
`current` the collected block lines, `start` the block's starting index and
`baseIndent` the block's base indentation (`none` when no block is open). -/
def extractLoop (path fhash : String) :
    Nat → List String → List String → Nat → Option Nat → List RawBlock
  | i, [], current, start, _ =>
    if 5 ≤ current.length then [mkBlock path fhash current start i] else []
  | i, line :: rest, current, start, baseIndent =>
    let stripped := pyStrip line
    if stripped.isEmpty || pyStartsWith "#" stripped || pyStartsWith "//" stripped then
      (if 5 ≤ current.length then [mkBlock path fhash current start i] else []) ++
        extractLoop path fhash (i + 1) rest [] start none
    else
      let indent := line.data.length - (line.data.dropWhile pyWhitespace).length
      match baseIndent with
      | none => extractLoop path fhash (i + 1) rest [line] i (some indent)
      | some base =>
        if base ≤ indent then
          extractLoop path fhash (i + 1) rest (current ++ [line]) start (some base)
        else
          (if 5 ≤ current.length then [mkBlock path fhash current start i] else []) ++
            extractLoop path fhash (i + 1) rest [line] i (some indent)

/-- `_extract_code_blocks` on one file. -/
def extractCodeBlocks (fi : FileInfo) : List RawBlock :=
  extractLoop fi.relative_path fi.hash 0 (splitLines fi.content) [] 0 none

/-- All blocks of the corpus, in file order. -/
def allBlocks (files : List FileInfo) : List RawBlock :=
  files.flatMap extractCodeBlocks

/-- The `file:start-end` location text used in descriptions. -/
def blockLoc (b : RawBlock) : String :=
  b.file_path ++ ":" ++ toString b.start_line ++ "-" ++ toString b.end_line

/-- The issue built for one occurrence of a duplicated block: `groupSize`
is the number of occurrences, `others` the other occurrences' locations. -/
def exactDupIssue (groupSize : Nat) (others : List String) (b : RawBlock) :
    CodeIssue :=
  { id := "exact_dup_" ++ b.file_hash ++ "_" ++ toString b.start_line
    category := .duplication
    severity := if 20 < b.line_count then .high else .medium
    title := "Exact Code Duplication (" ++ toString b.line_count ++ " lines)"
    description := "Code block duplicated in " ++ toString groupSize ++
      " locations: " ++ pyJoin ", " others
    file_path := b.file_path
    line_number := some b.start_line
    line_range := some (b.start_line, b.end_line)
    suggestion := "Extract common code into a shared function or module"
    impact_score := pyMin ((b.line_count : Rat) / 5) 10
    confidence := 1
    rule_id := some "exact_duplication" }

/-- The issues emitted for one hash group. -/
def groupIssues (g : List RawBlock) : List CodeIssue :=
  match g with
  | [] => []
  | b0 :: _ =>
    if 1 < g.length ∧ 5 ≤ b0.line_count then
      g.enum.map (fun p =>
        exactDupIssue g.length
          (((g.enum.filter (fun p2 => p2.1 ≠ p.1)).map (fun p2 => blockLoc p2.2)))
          p.2)
    else []

/-- `_analyze_exact_duplicates`. -/
def analyzeExactDuplicates (files : List FileInfo) : List CodeIssue :=
  let blocks := allBlocks files
  ((blocks.map (fun b => b.hash)).dedup).flatMap
    (fun h => groupIssues (blocks.filter (fun b => b.hash = h)))

lemma pyJoin_mem_infix (sep : String) {parts : List String} {s : String}
    (h : s ∈ parts) : ∃ pre post, pyJoin sep parts = pre ++ s ++ post := by
  induction parts with
  | nil => cases h
  | cons x rest ih =>
    rcases List.mem_cons.mp h with rfl | hmem
    · cases rest with
      | nil =>
        refine ⟨"", "", ?_⟩
        simp [pyJoin]
      | cons y r =>
        refine ⟨"", sep ++ pyJoin sep (y :: r), ?_⟩
        simp [pyJoin, String.append_assoc]
    · cases rest with
      | nil => cases hmem
      | cons y r =>
        rcases ih hmem with ⟨pre, post, hpre⟩
        refine ⟨x ++ sep ++ pre, post, ?_⟩
        rw [show pyJoin sep (x :: y :: r) = x ++ sep ++ pyJoin sep (y :: r)
          from rfl, hpre]
        simp [String.append_assoc]

/-- Every block the extractor emits has at least 5 lines and carries the
file's path and digest. -/
lemma extractLoop_invariant (path fhash : String) (lines : List String) :
    ∀ i current start base, ∀ b ∈ extractLoop path fhash i lines current start base,
      5 ≤ b.line_count ∧ b.file_path = path ∧ b.file_hash = fhash := by
  induction lines with
  | nil =>
    intro i current start base b hb
    unfold extractLoop at hb
    split at hb
    · rcases List.mem_singleton.mp hb with rfl
      rename_i hlen
      exact ⟨hlen, rfl, rfl⟩
    · cases hb
  | cons line rest ih =>
    intro i current start base b hb
    unfold extractLoop at hb
    simp only [] at hb
    split at hb
    · rcases List.mem_append.mp hb with hb | hb
      · split at hb
        · rename_i hlen
          rcases List.mem_singleton.mp hb with rfl
          exact ⟨hlen, rfl, rfl⟩
        · cases hb
      · exact ih _ _ _ _ b hb
    · cases base with
      | none =>
        simp only [] at hb
        exact ih _ _ _ _ b hb
      | some bi =>
        simp only [] at hb
        split at hb
        · exact ih _ _ _ _ b hb
        · rcases List.mem_append.mp hb with hb | hb
          · split at hb
            · rename_i hlen
              rcases List.mem_singleton.mp hb with rfl
              exact ⟨hlen, rfl, rfl⟩
            · cases hb
          · exact ih _ _ _ _ b hb

/-- Change only a block's file identity. -/
def reFile (path fhash : String) (b : RawBlock) : RawBlock :=
  { b with file_path := path, file_hash := fhash }

/-- The extraction loop depends on the file only through its line list; a
second file with identical content yields the same blocks re-labelled. -/
lemma extractLoop_reFile (p1 h1 p2 h2 : String) (lines : List String) :
    ∀ i current start base,
      extractLoop p2 h2 i lines current start base =
        (extractLoop p1 h1 i lines current start base).map (reFile p2 h2) := by
  induction lines with
  | nil =>
    intro i current start base
    unfold extractLoop
    split
    · rfl
    · rfl
  | cons line rest ih =>
    intro i current start base
    unfold extractLoop
    simp only []
    split
    · rw [List.map_append, ih]
      congr 1
      split
      · rfl
      · rfl
    · cases base with
      | none =>
        simp only []
        exact ih _ _ _ _
      | some bi =>
        simp only []
        split
        · exact ih _ _ _ _
        · rw [List.map_append, ih]
          congr 1
          split
          · rfl
          · rfl

lemma extractCodeBlocks_reFile {f1 f2 : FileInfo} (h : f1.content = f2.content) :
    extractCodeBlocks f2 =
      (extractCodeBlocks f1).map (reFile f2.relative_path f2.hash) := by
  unfold extractCodeBlocks
  rw [← h]
  exact extractLoop_reFile f1.relative_path f1.hash _ _ _ _ _ _ _

lemma extractCodeBlocks_invariant {f : FileInfo} {b : RawBlock}
    (hb : b ∈ extractCodeBlocks f) :
    5 ≤ b.line_count ∧ b.file_path = f.relative_path ∧ b.file_hash = f.hash :=
  extractLoop_invariant _ _ _ _ _ _ _ b hb

/-- Every group member receives its finding once the group qualifies. -/
lemma groupIssues_mem {g : List RawBlock} {n : Nat} {b : RawBlock}
    (hmem : (n, b) ∈ g.enum) (hlen : 1 < g.length)
    (hcount : ∀ b2 ∈ g, 5 ≤ b2.line_count) :
    exactDupIssue g.length
      ((g.enum.filter (fun p2 => p2.1 ≠ n)).map (fun p2 => blockLoc p2.2)) b
      ∈ groupIssues g := by
  cases g with
  | nil => simp at hlen
  | cons b0 g2 =>
    have h0 : 5 ≤ b0.line_count := hcount b0 (List.mem_cons_self _ _)
    unfold groupIssues
    simp only []
    rw [if_pos ⟨hlen, h0⟩]
    exact List.mem_map.mpr ⟨(n, b), hmem, rfl⟩

/-- The central existence lemma: two distinct blocks of the corpus with the
same digest force, for the first block, an exact-duplication finding whose
description cross-references the second block's location. -/
lemma exists_exact_dup_issue {files : List FileInfo} {b1 b2 : RawBlock}
    (h1 : b1 ∈ allBlocks files) (h2 : b2 ∈ allBlocks files)
    (hhash : b2.hash = b1.hash) (hne : b1 ≠ b2)
    (hcount : ∀ b ∈ allBlocks files, 5 ≤ b.line_count) :
    ∃ i ∈ analyzeExactDuplicates files,
      i.file_path = b1.file_path ∧ i.line_number = some b1.start_line ∧
      i.category = .duplication ∧
      ∃ pre post : String, i.description = pre ++ blockLoc b2 ++ post := by
  classical
  have hmem1 : b1 ∈ (allBlocks files).filter (fun b => b.hash = b1.hash) :=
    List.mem_filter.mpr ⟨h1, by simp⟩
  have hmem2 : b2 ∈ (allBlocks files).filter (fun b => b.hash = b1.hash) :=
    List.mem_filter.mpr ⟨h2, by simp [hhash]⟩
  rcases (List.mem_iff_get).mp hmem1 with ⟨n1, hn1⟩
  rcases (List.mem_iff_get).mp hmem2 with ⟨n2, hn2⟩
  have hne12 : (n1 : Nat) ≠ (n2 : Nat) := by
    intro hcon
    apply hne
    rw [← hn1, ← hn2]
    congr 1
    exact Fin.ext hcon
  have hglen : 1 < ((allBlocks files).filter (fun b => b.hash = b1.hash)).length := by
    have := n1.isLt
    have := n2.isLt
    omega
  have henum1 : ((n1 : Nat), b1) ∈
      ((allBlocks files).filter (fun b => b.hash = b1.hash)).enum := by
    rw [List.mem_enum_iff_getElem?, List.getElem?_eq_getElem n1.isLt]
    exact congrArg some hn1
  have henum2 : ((n2 : Nat), b2) ∈
      ((allBlocks files).filter (fun b => b.hash = b1.hash)).enum := by
    rw [List.mem_enum_iff_getElem?, List.getElem?_eq_getElem n2.isLt]
    exact congrArg some hn2
  have hgcount : ∀ b ∈ (allBlocks files).filter (fun b => b.hash = b1.hash),
      5 ≤ b.line_count :=
    fun b hb => hcount b (List.mem_filter.mp hb).1
  have hissue := groupIssues_mem henum1 hglen hgcount
  have hgrp : b1.hash ∈ ((allBlocks files).map (fun b => b.hash)).dedup := by
    rw [List.mem_dedup]
    exact List.mem_map.mpr ⟨b1, h1, rfl⟩
  refine ⟨exactDupIssue ((allBlocks files).filter (fun b => b.hash = b1.hash)).length
      ((((allBlocks files).filter (fun b => b.hash = b1.hash)).enum.filter
        (fun p2 => p2.1 ≠ (n1 : Nat))).map (fun p2 => blockLoc p2.2)) b1,
    ?_, rfl, rfl, rfl, ?_⟩
  · unfold analyzeExactDuplicates
    simp only []
    exact List.mem_flatMap.mpr ⟨b1.hash, hgrp, hissue⟩
  · have hloc : blockLoc b2 ∈
        (((allBlocks files).filter (fun b => b.hash = b1.hash)).enum.filter
          (fun p2 => p2.1 ≠ (n1 : Nat))).map (fun p2 => blockLoc p2.2) := by
      refine List.mem_map.mpr ⟨((n2 : Nat), b2), ?_, rfl⟩
      refine List.mem_filter.mpr ⟨henum2, ?_⟩
      simp [Ne.symm hne12]
    rcases pyJoin_mem_infix ", " hloc with ⟨pre, post, hjoin⟩
    refine ⟨"Code block duplicated in " ++
      toString ((allBlocks files).filter (fun b => b.hash = b1.hash)).length ++
      " locations: " ++ pre, post, ?_⟩
    show "Code block duplicated in " ++
      toString ((allBlocks files).filter (fun b => b.hash = b1.hash)).length ++
      " locations: " ++ pyJoin ", " _ = _
    rw [hjoin]
    simp [String.append_assoc]

/-- C3: two distinct files with byte-identical content containing a
qualifying block (at least `min_duplicate_lines = 5` contiguous lines, as
extracted by `_extract_code_blocks`) each receive at least one
exact-duplication finding, and those findings' descriptions cross-reference
the other file's block location. -/
theorem exact_duplicate_round_trip (f1 f2 : FileInfo)
    (hpath : f1.relative_path ≠ f2.relative_path)
    (hcontent : f1.content = f2.content)
    (hblocks : extractCodeBlocks f1 ≠ []) :
    (∃ i ∈ analyzeExactDuplicates [f1, f2],
      i.file_path = f1.relative_path ∧ i.category = .duplication ∧
      ∃ b2 ∈ extractCodeBlocks f2, ∃ pre post : String,
        i.description = pre ++ blockLoc b2 ++ post ∧
        b2.file_path = f2.relative_path) ∧
    (∃ i ∈ analyzeExactDuplicates [f1, f2],
      i.file_path = f2.relative_path ∧ i.category = .duplication ∧
      ∃ b1 ∈ extractCodeBlocks f1, ∃ pre post : String,
        i.description = pre ++ blockLoc b1 ++ post ∧
        b1.file_path = f1.relative_path) := by
  rcases List.exists_mem_of_ne_nil _ hblocks with ⟨b1, hb1⟩
  have hmap := extractCodeBlocks_reFile hcontent
  set b2 := reFile f2.relative_path f2.hash b1 with hb2def
  have hb2 : b2 ∈ extractCodeBlocks f2 := by
    rw [hmap]
    exact List.mem_map.mpr ⟨b1, hb1, rfl⟩
  have hall1 : b1 ∈ allBlocks [f1, f2] := by
    unfold allBlocks
    simp only [List.flatMap_cons, List.flatMap_nil, List.append_nil]
    exact List.mem_append.mpr (Or.inl hb1)
  have hall2 : b2 ∈ allBlocks [f1, f2] := by
    unfold allBlocks
    simp only [List.flatMap_cons, List.flatMap_nil, List.append_nil]
    exact List.mem_append.mpr (Or.inr hb2)
  have hhash : b2.hash = b1.hash := rfl
  have hb1path : b1.file_path = f1.relative_path :=
    (extractCodeBlocks_invariant hb1).2.1
  have hb2path : b2.file_path = f2.relative_path := rfl
  have hne : b1 ≠ b2 := by
    intro hcon
    apply hpath
    rw [← hb1path, hcon]
    exact hb2path
  have hcount : ∀ b ∈ allBlocks [f1, f2], 5 ≤ b.line_count := by
    intro b hb
    unfold allBlocks at hb
    simp only [List.flatMap_cons, List.flatMap_nil, List.append_nil] at hb
    rcases List.mem_append.mp hb with hb | hb
    · exact (extractCodeBlocks_invariant hb).1
    · exact (extractCodeBlocks_invariant hb).1
  constructor
  · rcases exists_exact_dup_issue hall1 hall2 hhash hne hcount with
      ⟨i, hi, hip, hil, hic, pre, post, hdesc⟩
    exact ⟨i, hi, hb1path ▸ hip, hic, b2, hb2, pre, post, hdesc, hb2path⟩
  · rcases exists_exact_dup_issue hall2 hall1 hhash.symm (Ne.symm hne) hcount with
      ⟨i, hi, hip, hil, hic, pre, post, hdesc⟩
    exact ⟨i, hi, hb2path ▸ hip, hic, b1, hb1, pre, post, hdesc, hb1path⟩

/-- First file of the duplication witness pair. -/
def dupFileA : FileInfo :=
  { relative_path := "a.py", language := "python",
    content := "a = 1\nb = 2\nc = 3\nd = 4\ne = 5" }

/-- Second file of the duplication witness pair: same content, other path. -/
def dupFileB : FileInfo :=
  { relative_path := "b.py", language := "python",
    content := "a = 1\nb = 2\nc = 3\nd = 4\ne = 5" }

/-- Witness for C3: two concrete files with the same five-line content each
draw an exact-duplication finding naming the other file's block. -/
theorem exact_duplicate_round_trip_witness :
    dupFileA.relative_path ≠ dupFileB.relative_path ∧
    dupFileA.content = dupFileB.content ∧
    extractCodeBlocks dupFileA ≠ [] ∧
    (∃ i ∈ analyzeExactDuplicates [dupFileA, dupFileB],
      i.file_path = dupFileA.relative_path ∧ i.category = .duplication ∧
      ∃ b2 ∈ extractCodeBlocks dupFileB, ∃ pre post : String,
        i.description = pre ++ blockLoc b2 ++ post ∧
        b2.file_path = dupFileB.relative_path) ∧
    (∃ i ∈ analyzeExactDuplicates [dupFileA, dupFileB],
      i.file_path = dupFileB.relative_path ∧ i.category = .duplication ∧
      ∃ b1 ∈ extractCodeBlocks dupFileA, ∃ pre post : String,
        i.description = pre ++ blockLoc b1 ++ post ∧
        b1.file_path = dupFileA.relative_path) := by
  have h1 : dupFileA.relative_path ≠ dupFileB.relative_path := by decide
  have h2 : dupFileA.content = dupFileB.content := rfl
  have h3 : extractCodeBlocks dupFileA ≠ [] := by decide
  have hmain := exact_duplicate_round_trip dupFileA dupFileB h1 h2 h3
  exact ⟨h1, h2, h3, hmain.1, hmain.2⟩

/-! ### `SecurityAnalyzer._analyze_with_patterns` (security_analyzer.py
25-143, 430-486)

The pattern pass runs `re.finditer(pattern, content, IGNORECASE |
MULTILINE)` for every file and vulnerability pattern and emits one issue
per match, with `line_number = content[:match.start()].count('\n') + 1`.
The embedding models the third `sql_injection` pattern,
`query\s*=\s*["\'].*\+.*["\']`; its findings form a sublist of the pass's
output, which concatenates the per-pattern finding lists.  On this pattern
the backtracking engine is deterministic: `\s*` followed by a
non-whitespace literal is maximal munch, and the greedy `.*\+.*["\']`
part -- confined to one line, since `.` does not match a newline -- ends
after the last quote character of the line provided a `+` precedes that
quote.  `\s` is modelled over the ASCII whitespace characters
(`pyWhitespace`); `MULTILINE` is irrelevant (no anchors) and `IGNORECASE`
only affects the literal `query`. -/

def isQuoteC (c : Char) : Bool := c = '"' || c = '\''

/-- Index of the last element satisfying `p`. -/
def lastIdx (p : Char → Bool) : List Char → Option Nat
  | [] => none
  | c :: rest =>
    match lastIdx p rest with
    | some i => some (i + 1)
    | none => if p c then some 0 else none

/-- Greedy result of `.*\+.*["\']` on a single line: the match ends after
the line's last quote character, and exists iff a `+` precedes it. -/
def pat3LineEnd (line : List Char) : Option Nat :=
  match lastIdx isQuoteC line with
  | some qi => if (line.take qi).any (fun c => c = '+') then some qi else none
  | none => none

/-- Matcher for `query\s*=\s*["\'].*\+.*["\']` (IGNORECASE) at the head of
`s`; returns the matched length. -/
def matchPat3 (s : List Char) : Option Nat :=
  match s with
  | c1 :: c2 :: c3 :: c4 :: c5 :: r0 =>
    if (c1 = 'q' || c1 = 'Q') && (c2 = 'u' || c2 = 'U') && (c3 = 'e' || c3 = 'E')
        && (c4 = 'r' || c4 = 'R') && (c5 = 'y' || c5 = 'Y') then
      match r0.dropWhile pyWhitespace with
      | '=' :: r2 =>
        match r2.dropWhile pyWhitespace with
        | c6 :: r4 =>
          if isQuoteC c6 then
            match pat3LineEnd (r4.takeWhile (fun c => c != '\n')) with
            | some qi =>
              some (5 + (r0.takeWhile pyWhitespace).length + 1 +
                (r2.takeWhile pyWhitespace).length + 1 + qi + 1)
            | none => none
          else none
        | [] => none
      | _ => none
    else none
  | _ => none

lemma lastIdx_lt_length {p : Char → Bool} {l : List Char} {i : Nat}
    (h : lastIdx p l = some i) : i < l.length := by
  induction l generalizing i with
  | nil => simp [lastIdx] at h
  | cons c rest ih =>
    unfold lastIdx at h
    split at h
    · rcases Option.some.inj h with rfl
      rename_i j hj
      have := ih hj
      simp
      omega
    · split at h
      · rcases Option.some.inj h with rfl
        simp
      · cases h

lemma matchPat3_pos {s : List Char} {len : Nat} (h : matchPat3 s = some len) :
    1 ≤ len := by
  unfold matchPat3 at h
  split at h
  · split at h
    · split at h
      · split at h
        · split at h
          · split at h
            · rcases Option.some.inj h with rfl
              omega
            · cases h
          · cases h
        · cases h
      · cases h
    · cases h
  · cases h

/-- In a list accepted by the matcher, every newline (possible only inside
a `\s*` segment) is immediately followed by another whitespace character,
by the `=` literal, or by the opening quote. -/
def nlOk : List Char → Bool
  | [] => true
  | c :: rest =>
    if c = '\n' then
      match rest with
      | [] => false
      | c2 :: _ => (pyWhitespace c2 || c2 == '=' || isQuoteC c2) && nlOk rest
    else nlOk rest

lemma nlOk_cons_of_ne {c : Char} (l : List Char) (hc : ¬ c = '\n') :
    nlOk (c :: l) = nlOk l := by
  simp [nlOk, hc]

lemma nlOk_of_no_nl {l : List Char} (h : ∀ c ∈ l, ¬ c = '\n') :
    nlOk l = true := by
  induction l with
  | nil => rfl
  | cons c rest ih =>
    rw [nlOk_cons_of_ne rest (h c (List.mem_cons_self _ _))]
    exact ih (fun d hd => h d (List.mem_cons_of_mem _ hd))

lemma nlOk_ws_prefix {w rest : List Char} {d : Char}
    (hw : ∀ c ∈ w, pyWhitespace c = true)
    (hd : (pyWhitespace d || d == '=' || isQuoteC d) = true)
    (hrest : nlOk (d :: rest) = true) : nlOk (w ++ d :: rest) = true := by
  induction w with
  | nil => exact hrest
  | cons c w2 ih =>
    have hcw := hw c (List.mem_cons_self _ _)
    have ihv := ih (fun x hx => hw x (List.mem_cons_of_mem _ hx))
    by_cases hc : c = '\n'
    · subst hc
      cases w2 with
      | nil =>
        show nlOk ('\n' :: d :: rest) = true
        rw [show nlOk ('\n' :: d :: rest) =
          ((pyWhitespace d || d == '=' || isQuoteC d) && nlOk (d :: rest)) from rfl]
        rw [hd, hrest]
        rfl
      | cons y w3 =>
        have hy := hw y (List.mem_cons_of_mem _ (List.mem_cons_self _ _))
        rw [show ('\n' :: y :: w3) ++ d :: rest =
          '\n' :: ((y :: w3) ++ d :: rest) from rfl]
        rw [show nlOk ('\n' :: ((y :: w3) ++ d :: rest)) =
          ((pyWhitespace y || y == '=' || isQuoteC y) &&
            nlOk ((y :: w3) ++ d :: rest)) from rfl]
        rw [ihv, hy]
        rfl
    · rw [show (c :: w2) ++ d :: rest = c :: (w2 ++ d :: rest) from rfl,
        nlOk_cons_of_ne _ hc]
      exact ihv

lemma nlOk_last_nl_false {u w : List Char} {c : Char}
    (hu : u.getLast? = some '\n') (hc1 : pyWhitespace c = false)
    (hc2 : (c == '=') = false) (hc3 : isQuoteC c = false) :
    nlOk (u ++ c :: w) = false := by
  induction u with
  | nil => simp at hu
  | cons x u2 ih =>
    cases u2 with
    | nil =>
      have hx : x = '\n' := by
        simpa using hu
      subst hx
      rw [show ['\n'] ++ c :: w = '\n' :: c :: w from rfl]
      rw [show nlOk ('\n' :: c :: w) =
        ((pyWhitespace c || c == '=' || isQuoteC c) && nlOk (c :: w)) from rfl]
      rw [hc1, hc2, hc3]
      rfl
    | cons y u3 =>
      have hu2 : (y :: u3).getLast? = some '\n' := by
        rw [← hu]
        exact List.getLast?_cons_cons.symm
      have ihv := ih hu2
      by_cases hx : x = '\n'
      · subst hx
        rw [show ('\n' :: y :: u3) ++ c :: w = '\n' :: ((y :: u3) ++ c :: w) from rfl]
        rw [show nlOk ('\n' :: ((y :: u3) ++ c :: w)) =
          ((pyWhitespace y || y == '=' || isQuoteC y) &&
            nlOk ((y :: u3) ++ c :: w)) from rfl]
        rw [ihv, Bool.and_false]
      · rw [show (x :: y :: u3) ++ c :: w = x :: ((y :: u3) ++ c :: w) from rfl,
          nlOk_cons_of_ne _ hx]
        exact ihv

/-- A successful match satisfies `nlOk` on its consumed prefix and fits in
the scanned text. -/
lemma matchPat3_decomp {s : List Char} {len : Nat} (h : matchPat3 s = some len) :
    nlOk (s.take len) = true ∧ len ≤ s.length := by
  unfold matchPat3 at h
  split at h
  any_goals exact Option.noConfusion h
  rename_i c1 c2 c3 c4 c5 r0
  split at h
  any_goals exact Option.noConfusion h
  rename_i hguard
  split at h
  any_goals exact Option.noConfusion h
  rename_i r2 heq1
  split at h
  any_goals exact Option.noConfusion h
  rename_i c6 r4 heq2
  split at h
  any_goals exact Option.noConfusion h
  rename_i hq
  split at h
  any_goals exact Option.noConfusion h
  rename_i qi heq3
  rcases Option.some.inj h with rfl
  set w1 := r0.takeWhile pyWhitespace with hW1
  set w2 := r2.takeWhile pyWhitespace with hW2
  set lineT := r4.takeWhile (fun c => c != '\n') with hLT
  have hr0 : r0 = w1 ++ '=' :: r2 := by
    conv_lhs => rw [← List.takeWhile_append_dropWhile pyWhitespace r0]
    rw [heq1]
  have hr2 : r2 = w2 ++ c6 :: r4 := by
    conv_lhs => rw [← List.takeWhile_append_dropWhile pyWhitespace r2]
    rw [heq2]
  have hw1all : ∀ c ∈ w1, pyWhitespace c = true :=
    fun c hc => List.mem_takeWhile_imp hc
  have hw2all : ∀ c ∈ w2, pyWhitespace c = true :=
    fun c hc => List.mem_takeWhile_imp hc
  have hqi : qi < lineT.length := by
    unfold pat3LineEnd at heq3
    split at heq3
    · rename_i qj hqj
      split at heq3
      · rcases Option.some.inj heq3 with rfl
        exact lastIdx_lt_length hqj
      · exact Option.noConfusion heq3
    · exact Option.noConfusion heq3
  have hlineLe : lineT.length ≤ r4.length :=
    List.Sublist.length_le (List.takeWhile_sublist _)
  have hlineNoNl : ∀ c ∈ lineT.take (qi + 1), ¬ c = '\n' := by
    intro c hc
    have hm := List.mem_takeWhile_imp (List.mem_of_mem_take hc)
    simpa using hm
  have htake4 : r4.take (qi + 1) = lineT.take (qi + 1) := by
    conv_lhs => rw [← List.takeWhile_append_dropWhile (fun c => c != '\n') r4]
    rw [List.take_append_of_le_length (by rw [← hLT]; omega)]
  simp only [Bool.and_eq_true, Bool.or_eq_true, decide_eq_true_eq] at hguard
  obtain ⟨⟨⟨⟨h1, h2⟩, h3⟩, h4⟩, h5⟩ := hguard
  have hne1 : ¬ c1 = '\n' := by rcases h1 with rfl | rfl <;> decide
  have hne2 : ¬ c2 = '\n' := by rcases h2 with rfl | rfl <;> decide
  have hne3 : ¬ c3 = '\n' := by rcases h3 with rfl | rfl <;> decide
  have hne4 : ¬ c4 = '\n' := by rcases h4 with rfl | rfl <;> decide
  have hne5 : ¬ c5 = '\n' := by rcases h5 with rfl | rfl <;> decide
  have hq2 : c6 = '"' ∨ c6 = '\'' := by
    simpa [isQuoteC] using hq
  have hne6 : ¬ c6 = '\n' := by rcases hq2 with rfl | rfl <;> decide
  constructor
  · rw [show (c1::c2::c3::c4::c5::r0 : List Char) =
      c1::c2::c3::c4::c5::(w1 ++ '=' :: (w2 ++ c6 :: r4)) from by rw [← hr2, ← hr0]]
    have hstep : (c1::c2::c3::c4::c5::(w1 ++ '=' :: (w2 ++ c6 :: r4))).take
        (5 + w1.length + 1 + w2.length + 1 + qi + 1) =
        c1::c2::c3::c4::c5::(w1 ++ '=' :: (w2 ++ c6 :: lineT.take (qi + 1))) := by
      rw [show 5 + w1.length + 1 + w2.length + 1 + qi + 1 =
        (w1.length + (1 + (w2.length + (1 + (qi + 1))))) + 1 + 1 + 1 + 1 + 1
        from by omega]
      simp only [List.take_succ_cons]
      rw [List.take_append]
      rw [show 1 + (w2.length + (1 + (qi + 1))) =
        (w2.length + (1 + (qi + 1))) + 1 from by omega]
      rw [List.take_succ_cons, List.take_append]
      rw [show 1 + (qi + 1) = (qi + 1) + 1 from by omega]
      rw [List.take_succ_cons, htake4]
    rw [hstep]
    rw [nlOk_cons_of_ne _ hne1, nlOk_cons_of_ne _ hne2, nlOk_cons_of_ne _ hne3,
      nlOk_cons_of_ne _ hne4, nlOk_cons_of_ne _ hne5]
    apply nlOk_ws_prefix hw1all (by decide)
    rw [nlOk_cons_of_ne _ (by decide : ¬ '=' = '\n')]
    apply nlOk_ws_prefix hw2all (by rw [hq, Bool.or_true])
    rw [nlOk_cons_of_ne _ hne6]
    exact nlOk_of_no_nl hlineNoNl
  · rw [show (c1::c2::c3::c4::c5::r0 : List Char) =
      c1::c2::c3::c4::c5::(w1 ++ '=' :: (w2 ++ c6 :: r4)) from by rw [← hr2, ← hr0]]
    simp only [List.length_cons, List.length_append]
    omega

/-- A match starting before a newline boundary cannot extend past it when
the first character after the boundary is none of whitespace, `=`, or a
quote. -/
lemma matchPat3_no_cross {u v : List Char} {c : Char} {len : Nat}
    (h : matchPat3 (u ++ c :: v) = some len) (hu : u.getLast? = some '\n')
    (hc1 : pyWhitespace c = false) (hc2 : (c == '=') = false)
    (hc3 : isQuoteC c = false) : len ≤ u.length := by
  by_contra hlt
  push_neg at hlt
  have hnl := (matchPat3_decomp h).1
  have htk : (u ++ c :: v).take len = u ++ c :: v.take (len - u.length - 1) := by
    rw [show len = u.length + (len - u.length) from by omega, List.take_append]
    rw [show len - u.length = (len - u.length - 1) + 1 from by omega,
      List.take_succ_cons]
    rw [show u.length + (len - u.length - 1 + 1) - u.length - 1 =
      len - u.length - 1 from by omega]
  rw [htk, nlOk_last_nl_false hu hc1 hc2 hc3] at hnl
  exact Bool.noConfusion hnl

/-- `re.finditer` for the pattern: scan left to right, emit each
non-overlapping match as an offset pair and resume after it. -/
def scanPat3 : List Char → Nat → List (Nat × Nat)
  | [], _ => []
  | c :: rest, pos =>
    match hm : matchPat3 (c :: rest) with
    | some len => (pos, pos + len) :: scanPat3 ((c :: rest).drop len) (pos + len)
    | none => scanPat3 rest (pos + 1)
termination_by s _ => s.length
decreasing_by
  · have h1 := matchPat3_pos hm
    simp [List.length_drop]
    omega
  · simp

/-- If no match starting inside `pre` crosses into `suf` and `suf` itself
starts a match, the scan reports a match at the boundary offset. -/
lemma scanPat3_reaches {L : Nat} {suf : List Char}
    (hsuf : matchPat3 suf = some L) :
    ∀ n pre pos, pre.length = n →
      (∀ k len, k < pre.length → matchPat3 (pre.drop k ++ suf) = some len →
        k + len ≤ pre.length) →
      (pos + pre.length, pos + pre.length + L) ∈ scanPat3 (pre ++ suf) pos := by
  intro n
  induction n using Nat.strong_induction_on with
  | _ n ih =>
    intro pre pos hn hcross
    cases pre with
    | nil =>
      simp only [List.nil_append, List.length_nil, Nat.add_zero]
      cases hs : suf with
      | nil =>
        rw [hs] at hsuf
        exact Option.noConfusion hsuf
      | cons c rest =>
        rw [hs] at hsuf
        unfold scanPat3
        split
        · rename_i len hm
          rw [hm] at hsuf
          rcases Option.some.inj hsuf with rfl
          exact List.mem_cons_self _ _
        · rename_i hm
          rw [hm] at hsuf
          exact Option.noConfusion hsuf
    | cons c pre2 =>
      rw [show (c :: pre2) ++ suf = c :: (pre2 ++ suf) from rfl]
      unfold scanPat3
      split
      · rename_i len hm
        have hle : len ≤ (c :: pre2).length := by
          have := hcross 0 len (by simp) (by simpa using hm)
          simpa using this
        have hpos := matchPat3_pos hm
        have hdrop : (c :: (pre2 ++ suf)).drop len = (c :: pre2).drop len ++ suf := by
          rw [show (c :: (pre2 ++ suf)) = (c :: pre2) ++ suf from rfl]
          exact List.drop_append_of_le_length hle
        rw [hdrop]
        have hcross2 : ∀ k l2, k < ((c :: pre2).drop len).length →
            matchPat3 (((c :: pre2).drop len).drop k ++ suf) = some l2 →
            k + l2 ≤ ((c :: pre2).drop len).length := by
          intro k l2 hk hm2
          rw [List.drop_drop] at hm2
          have hk2 : len + k < (c :: pre2).length := by
            rw [List.length_drop] at hk
            omega
          have := hcross (len + k) l2 hk2 hm2
          rw [List.length_drop]
          omega
        have hlen2 : ((c :: pre2).drop len).length < n := by
          rw [List.length_drop, ← hn]
          have : 0 < (c :: pre2).length := by simp
          omega
        have hmem := ih _ hlen2 ((c :: pre2).drop len) (pos + len) rfl hcross2
        rw [List.length_drop] at hmem
        have harith : pos + len + ((c :: pre2).length - len) = pos + (c :: pre2).length := by
          omega
        rw [harith] at hmem
        exact List.mem_cons_of_mem _ hmem
      · rename_i hm
        have hcross2 : ∀ k l2, k < pre2.length →
            matchPat3 (pre2.drop k ++ suf) = some l2 → k + l2 ≤ pre2.length := by
          intro k l2 hk hm2
          have hk2 : k + 1 < (c :: pre2).length := by simp; omega
          have := hcross (k + 1) l2 hk2 (by simpa using hm2)
          simp at this
          omega
        have hlen2 : pre2.length < n := by
          rw [← hn]
          simp
        have hmem := ih _ hlen2 pre2 (pos + 1) rfl hcross2
        have harith : pos + 1 + pre2.length = pos + (c :: pre2).length := by
          simp
          omega
        rw [harith] at hmem
        exact hmem

/-- The characters of the scenario statement after its opening quote. -/
def sqlTailChars : List Char :=
  ['S','E','L','E','C','T',' ','*',' ','F','R','O','M',' ','u','s','e','r','s',
   ' ','W','H','E','R','E',' ','i','d','=','\'','"',' ','+',' ','u','s','e','r',
   '_','i','d',' ','+',' ','"','\'','"']

/-- The characters of the scenario statement
`query = "SELECT * FROM users WHERE id='" + user_id + "'"`. -/
def sqlStmtChars : List Char :=
  ['q','u','e','r','y',' ','=',' ','"'] ++ sqlTailChars

def sqlStmt : String := String.mk sqlStmtChars

/-- The matcher accepts the scenario statement (all 56 characters) at its
head, for any continuation that is empty or starts a new line. -/
lemma matchPat3_stmt {post : List Char}
    (hpost : post = [] ∨ post.head? = some '\n') :
    matchPat3 (sqlStmtChars ++ post) = some 56 := by
  have htail : ∀ c ∈ sqlTailChars, (c != '\n') = true := by decide
  have hpostTW : post.takeWhile (fun c => c != '\n') = [] := by
    rcases hpost with rfl | hh
    · rfl
    · cases post with
      | nil => rfl
      | cons c rest =>
        have : c = '\n' := by simpa using hh
        subst this
        simp [List.takeWhile_cons]
  have hline : (sqlTailChars ++ post).takeWhile (fun c => c != '\n') =
      sqlTailChars := by
    rw [takeWhile_append_all htail, hpostTW, List.append_nil]
  rw [show sqlStmtChars ++ post =
    'q' :: 'u' :: 'e' :: 'r' :: 'y' ::
      (' ' :: '=' :: ' ' :: '"' :: (sqlTailChars ++ post))
    from by simp [sqlStmtChars]]
  unfold matchPat3
  simp only []
  rw [if_pos (by decide)]
  rw [show (' ' :: '=' :: ' ' :: '"' :: (sqlTailChars ++ post)).dropWhile
      pyWhitespace = '=' :: (' ' :: '"' :: (sqlTailChars ++ post)) from by
    simp [List.dropWhile_cons, pyWhitespace]]
  simp only []
  rw [show (' ' :: '"' :: (sqlTailChars ++ post)).dropWhile pyWhitespace =
      '"' :: (sqlTailChars ++ post) from by
    simp [List.dropWhile_cons, pyWhitespace]]
  simp only []
  rw [if_pos (by decide : isQuoteC '"' = true)]
  rw [hline]
  rw [show pat3LineEnd sqlTailChars = some 46 from by decide]
  rw [show (' ' :: '=' :: ' ' :: '"' :: (sqlTailChars ++ post)).takeWhile
      pyWhitespace = [' '] from by simp [List.takeWhile_cons, pyWhitespace]]
  rw [show (' ' :: '"' :: (sqlTailChars ++ post)).takeWhile pyWhitespace =
      [' '] from by simp [List.takeWhile_cons, pyWhitespace]]
  rfl

/-- The issue `_analyze_with_patterns` builds for a `sql_injection` match
at offsets `m` (title `'sql_injection'.replace('_',' ').title()`, severity
from `severity_mapping`, description, suggestion and impact score from the
per-type tables, confidence 0.7). -/
def sqlPat3Issue (fi : FileInfo) (m : Nat × Nat) : CodeIssue :=
  let line_number := (fi.content.data.take m.1).count '\n' + 1
  { id := "sec_sql_injection_" ++ fi.hash ++ "_" ++ toString line_number
    category := .security
    severity := .critical
    title := "Potential Sql Injection"
    description := "Code may be vulnerable to SQL injection attacks through unsanitized user input"
    file_path := fi.relative_path
    line_number := some line_number
    suggestion := "Use parameterized queries or prepared statements instead of string concatenation"
    impact_score := 9
    confidence := 7 / 10
    rule_id := some "pattern_sql_injection" }

/-- The findings the pattern pass emits for the third `sql_injection`
pattern on one file (a sublist of `_analyze_with_patterns`' output). -/
def sqlPattern3Findings (fi : FileInfo) : List CodeIssue :=
  (scanPat3 fi.content.data 0).map (fun m => sqlPat3Issue fi m)

lemma strData_append (a b : String) : (a ++ b).data = a.data ++ b.data := rfl

/-- C5: any file containing, as a full line, the statement
`query = "SELECT * FROM users WHERE id='" + user_id + "'"` receives a
pattern-pass finding of category security and critical severity whose
title and description name SQL injection and whose line number is the
1-based line of that statement. -/
theorem sql_injection_line_detected (fi : FileInfo) (preC postC : String)
    (hsplit : fi.content = preC ++ sqlStmt ++ postC)
    (hpre : preC.data = [] ∨ preC.data.getLast? = some '\n')
    (hpost : postC.data = [] ∨ postC.data.head? = some '\n') :
    ∃ i ∈ sqlPattern3Findings fi,
      i.category = .security ∧ i.severity = .critical ∧
      i.title = "Potential Sql Injection" ∧
      i.description =
        "Code may be vulnerable to SQL injection attacks through unsanitized user input" ∧
      i.line_number = some (preC.data.count '\n' + 1) := by
  have hdata : fi.content.data = preC.data ++ (sqlStmtChars ++ postC.data) := by
    rw [hsplit, strData_append, strData_append, List.append_assoc]
    rfl
  have hmatch : matchPat3 (sqlStmtChars ++ postC.data) = some 56 :=
    matchPat3_stmt hpost
  have hcross : ∀ k len, k < preC.data.length →
      matchPat3 (preC.data.drop k ++ (sqlStmtChars ++ postC.data)) = some len →
      k + len ≤ preC.data.length := by
    intro k len hk hm
    rcases hpre with hnil | hlast
    · rw [hnil] at hk
      simp at hk
    · have hd : preC.data.drop k ≠ [] := by
        intro hcon
        have hlen := congrArg List.length hcon
        rw [List.length_drop] at hlen
        simp only [List.length_nil] at hlen
        omega
      have hlast2 : (preC.data.drop k).getLast? = some '\n' := by
        have hsplit2 : preC.data = preC.data.take k ++ preC.data.drop k :=
          (List.take_append_drop k preC.data).symm
        rw [hsplit2, List.getLast?_append] at hlast
        cases hgl : (preC.data.drop k).getLast? with
        | none => exact absurd hgl (by simpa [List.getLast?_eq_none_iff] using hd)
        | some x =>
          rw [hgl] at hlast
          simpa using hlast
      have hq : sqlStmtChars ++ postC.data =
          'q' :: (['u','e','r','y',' ','=',' ','"'] ++ sqlTailChars ++ postC.data) := by
        simp [sqlStmtChars]
      rw [hq] at hm
      have hle := matchPat3_no_cross hm hlast2 (by decide) (by decide) (by decide)
      rw [List.length_drop] at hle
      omega
  have hreach := scanPat3_reaches hmatch preC.data.length preC.data 0 rfl hcross
  simp only [Nat.zero_add] at hreach
  rw [← hdata] at hreach
  refine ⟨sqlPat3Issue fi (preC.data.length, preC.data.length + 56),
    List.mem_map.mpr ⟨_, hreach, rfl⟩, rfl, rfl, rfl, rfl, ?_⟩
  show some ((fi.content.data.take preC.data.length).count '\n' + 1) =
    some (preC.data.count '\n' + 1)
  rw [hdata, List.take_left]

/-- Witness file for C5: the statement sits on line 2 of a three-line
file. -/
def sqlWitnessFile : FileInfo :=
  { relative_path := "app.py", language := "python",
    content := "x = 1\n" ++ sqlStmt ++ "\ny = 2", hash := "h1" }

/-- Witness for C5: the finding exists on line 2 with the expected
category, severity, title and description. -/
theorem sql_injection_line_detected_witness :
    sqlWitnessFile.content = "x = 1\n" ++ sqlStmt ++ "\ny = 2" ∧
    ("x = 1\n" : String).data.getLast? = some '\n' ∧
    ("\ny = 2" : String).data.head? = some '\n' ∧
    ∃ i ∈ sqlPattern3Findings sqlWitnessFile,
      i.category = .security ∧ i.severity = .critical ∧
      i.title = "Potential Sql Injection" ∧
      i.description =
        "Code may be vulnerable to SQL injection attacks through unsanitized user input" ∧
      i.line_number = some 2 := by
  have h1 : sqlWitnessFile.content = "x = 1\n" ++ sqlStmt ++ "\ny = 2" := rfl
  have h2 : ("x = 1\n" : String).data.getLast? = some '\n' := by decide
  have h3 : ("\ny = 2" : String).data.head? = some '\n' := by decide
  have hcount : (("x = 1\n" : String).data.count '\n' + 1) = 2 := by decide
  have hmain := sql_injection_line_detected sqlWitnessFile "x = 1\n" "\ny = 2"
    h1 (Or.inr h2) (Or.inr h3)
  rw [hcount] at hmain
  exact ⟨h1, h2, h3, hmain⟩

/-! ### `CodePatternVisitor` (ast_analyzer.py 348-437), the AST-insight
conversion (quality_agent.py 144-157) and
`ComplexityAnalyzer._analyze_function_complexity` (complexity_analyzer.py
458-517)

`visit_FunctionDef` fires only for `FunctionDef` nodes (NodeVisitor
dispatches on the exact class name, so async functions only get
`generic_visit`); `ast.get_docstring` is falsy when the body does not
start with a string-constant expression or that string is empty.
`analyze_codebase` converts the AST result's issue list to architecture
insights keeping only `dict` instances; `_analyze_code_patterns` fills
that list with `CodeIssue` model objects, which are not dicts, so the
embedded dict test is false for every element and none of the visitor's
issues reach the response. -/

/-- Truth value of `not ast.get_docstring(node)`. -/
def docstringFalsy (body : List PyStmt) : Bool :=
  match body with
  | PyStmt.exprS _ (PyExpr.strConst s) :: _ => s = ""
  | _ => true

def longParamIssue (fhash relPath name : String) (lineno nargs : Nat) : CodeIssue :=
  { id := "long_param_list_" ++ fhash ++ "_" ++ toString lineno
    category := .complexity
    severity := .medium
    title := "Long Parameter List: " ++ name
    description := "Function '" ++ name ++ "' has " ++ toString nargs ++ " parameters"
    file_path := relPath
    line_number := some lineno
    suggestion := "Consider using parameter objects or reducing parameter count"
    impact_score := pyMin (nargs : Rat) 10
    confidence := 9 / 10
    rule_id := some "long_parameter_list" }

def missingDocIssue (fhash relPath name : String) (lineno : Nat) : CodeIssue :=
  { id := "missing_docstring_" ++ fhash ++ "_" ++ toString lineno
    category := .documentation
    severity := .low
    title := "Missing Docstring: " ++ name
    description := "Function '" ++ name ++ "' lacks documentation"
    file_path := relPath
    line_number := some lineno
    suggestion := "Add docstring to document function purpose and parameters"
    impact_score := 2
    confidence := 8 / 10
    rule_id := some "missing_docstring" }

def classMissingDocIssue (fhash relPath name : String) (lineno : Nat) : CodeIssue :=
  { id := "class_missing_docstring_" ++ fhash ++ "_" ++ toString lineno
    category := .documentation
    severity := .low
    title := "Missing Class Docstring: " ++ name
    description := "Class '" ++ name ++ "' lacks documentation"
    file_path := relPath
    line_number := some lineno
    suggestion := "Add docstring to document class purpose and usage"
    impact_score := 3
    confidence := 8 / 10
    rule_id := some "missing_class_docstring" }

def bareExceptIssue (fhash relPath : String) (lineno : Nat) : CodeIssue :=
  { id := "bare_except_" ++ fhash ++ "_" ++ toString lineno
    category := .style
    severity := .medium
    title := "Bare Except Clause"
    description := "Using bare 'except:' clause can hide errors"
    file_path := relPath
    line_number := some lineno
    suggestion := "Specify exception types or use 'except Exception:'"
    impact_score := 5
    confidence := 9 / 10
    rule_id := some "bare_except" }

mutual
/-- `CodePatternVisitor.visit` on one statement: issues first, then
`generic_visit` into the statement's child statements in field order. -/
def cpvStmt (fhash relPath : String) : PyStmt → List CodeIssue
  | .funcDef name lineno args body =>
    (if 7 < args.length then [longParamIssue fhash relPath name lineno args.length]
      else []) ++
    ((if docstringFalsy body then [missingDocIssue fhash relPath name lineno]
      else []) ++ cpvStmts fhash relPath body)
  | .asyncFuncDef _ _ _ body => cpvStmts fhash relPath body
  | .classDef name lineno _ body =>
    (if docstringFalsy body then [classMissingDocIssue fhash relPath name lineno]
      else []) ++ cpvStmts fhash relPath body
  | .ifS _ _ body orelse => cpvStmts fhash relPath body ++ cpvStmts fhash relPath orelse
  | .whileS _ _ body orelse => cpvStmts fhash relPath body ++ cpvStmts fhash relPath orelse
  | .forS _ _ body orelse => cpvStmts fhash relPath body ++ cpvStmts fhash relPath orelse
  | .asyncForS _ _ body orelse =>
    cpvStmts fhash relPath body ++ cpvStmts fhash relPath orelse
  | .tryS _ body handlers orelse finalbody =>
    (handlers.filterMap (fun h => match h with
      | .mk hl none _ => some (bareExceptIssue fhash relPath hl)
      | .mk _ (some _) _ => none)) ++
    (cpvStmts fhash relPath body ++ (cpvHandlers fhash relPath handlers ++
      (cpvStmts fhash relPath orelse ++ cpvStmts fhash relPath finalbody)))
  | .withS _ body => cpvStmts fhash relPath body
  | .assertS _ _ => []
  | .exprS _ _ => []
  | .returnS _ _ => []
  | .assignS _ _ _ => []
  | .passS _ => []

def cpvStmts (fhash relPath : String) : List PyStmt → List CodeIssue
  | [] => []
  | s :: rest => cpvStmt fhash relPath s ++ cpvStmts fhash relPath rest

def cpvHandlers (fhash relPath : String) : List PyHandler → List CodeIssue
  | [] => []
  | .mk _ _ body :: rest =>
    cpvStmts fhash relPath body ++ cpvHandlers fhash relPath rest
end

/-- `ArchitectureInsight` dict entries built at quality_agent.py 151-157. -/
structure ArchInsight where
  type : String
  description : String
  affected_files : List String
  severity : String
  suggestion : String
  deriving DecidableEq, Repr

/-- `isinstance(issue, dict)` for the AST result's issue list: the list
holds `CodeIssue` model objects (ast_analyzer.py 123-137), never dicts. -/
def isDictIssue (_ : CodeIssue) : Bool := false

/-- The conversion loop at quality_agent.py 149-157; the map branch is
unreachable because no element passes the dict test. -/
def processAstInsights (issues : List CodeIssue) : List ArchInsight :=
  (issues.filter (fun i => isDictIssue i)).map (fun i =>
    { type := "architectural", description := i.description,
      affected_files := [i.file_path], severity := "medium",
      suggestion := i.suggestion })

lemma processAstInsights_nil (l : List CodeIssue) : processAstInsights l = [] := by
  simp [processAstInsights, isDictIssue]

def longFunctionIssue (fi : FileInfo) (name : String)
    (line_start func_length : Nat) : CodeIssue :=
  { id := "func_length_" ++ fi.hash ++ "_" ++ toString line_start
    category := .complexity
    severity := if 100 < func_length then .high else .medium
    title := "Long Function: " ++ name
    description := "Function '" ++ name ++ "' is " ++ toString func_length ++
      " lines long"
    file_path := fi.relative_path
    line_number := some line_start
    suggestion := "Consider breaking this function into smaller functions. Target length: < 50 lines"
    impact_score := pyMin ((func_length : Rat) / 20) 10
    confidence := 9 / 10
    rule_id := some "long_function" }

def tooManyParamsIssue (fi : FileInfo) (name : String)
    (line_start param_count : Nat) : CodeIssue :=
  { id := "param_count_" ++ fi.hash ++ "_" ++ toString line_start
    category := .complexity
    severity := if param_count ≤ 10 then .medium else .high
    title := "Too Many Parameters: " ++ name
    description := "Function '" ++ name ++ "' has " ++ toString param_count ++
      " parameters"
    file_path := fi.relative_path
    line_number := some line_start
    suggestion := "Consider using parameter objects or reducing parameter count. Target: < 7 parameters"
    impact_score := pyMin (param_count : Rat) 10
    confidence := 8 / 10
    rule_id := some "too_many_parameters" }

/-- `_analyze_function_complexity` over `file_info.functions`
(name, line_start, line_end, args). -/
def functionComplexityIssues (fi : FileInfo) : List CodeIssue :=
  fi.functions.flatMap (fun f =>
    let name := f.1
    let line_start := f.2.1
    let line_end := f.2.2.1
    let args := f.2.2.2
    let func_length := line_end - line_start + 1
    (if 50 < func_length then [longFunctionIssue fi name line_start func_length]
      else []) ++
    (if 7 < args.length then [tooManyParamsIssue fi name line_start args.length]
      else []))

/-- The failing file of scenario A. -/
def c6File : FileInfo :=
  { relative_path := "f.py", language := "python",
    content := "def f(a,b,c,d,e,f,g,h): return a",
    functions := [("f", 1, 1, ["a","b","c","d","e","f","g","h"])],
    hash := "h6" }

/-- Its syntax tree. -/
def c6Tree : PyModule :=
  [PyStmt.funcDef "f" 1 ["a","b","c","d","e","f","g","h"]
    [PyStmt.returnS 1 (some (PyExpr.nameE "a"))]]

/-- C6 (code bug): on `def f(a,b,c,d,e,f,g,h): return a` the AST pattern
visitor produces exactly the long-parameter-list and missing-docstring
issues, but the agent's dict-only conversion drops them all, and the
findings assembled from the analyzers only ever receive the complexity
analyzer's `Too Many Parameters` issue for this file -- never a
missing-docstring finding. -/
theorem missing_docstring_finding_dropped :
    cpvStmts "h6" "f.py" c6Tree =
      [longParamIssue "h6" "f.py" "f" 1 8, missingDocIssue "h6" "f.py" "f" 1] ∧
    (missingDocIssue "h6" "f.py" "f" 1).rule_id = some "missing_docstring" ∧
    (longParamIssue "h6" "f.py" "f" 1 8).rule_id = some "long_parameter_list" ∧
    processAstInsights (cpvStmts "h6" "f.py" c6Tree) = [] ∧
    functionComplexityIssues c6File = [tooManyParamsIssue c6File "f" 1 8] ∧
    (tooManyParamsIssue c6File "f" 1 8).rule_id = some "too_many_parameters" ∧
    ¬ (tooManyParamsIssue c6File "f" 1 8).rule_id = some "missing_docstring" := by
  have heval : cpvStmts "h6" "f.py" c6Tree =
      [longParamIssue "h6" "f.py" "f" 1 8, missingDocIssue "h6" "f.py" "f" 1] := by
    simp [c6Tree, cpvStmts, cpvStmt, docstringFalsy]
  have hfc : functionComplexityIssues c6File = [tooManyParamsIssue c6File "f" 1 8] := by
    simp [c6File, functionComplexityIssues]
  exact ⟨heval, rfl, rfl, processAstInsights_nil _, hfc, rfl, by decide⟩

/-! ### `CodeParser.parse_directory` (code_parser.py 117-176)

The filesystem is abstracted: the analysis target resolves to a missing
path, a single file, or a directory whose walk (after the skip rules and
depth cut) yields a list of files.  Each file carries the outcome of
`_is_supported_file` and of `parse_file` (`none` when `parse_file` raised
or could not read the file).  The control flow is translated from the
source: the existence guard raises `ValueError`; the single-file branch
swallows a `parse_file` exception in its `try`; the directory branch
gathers with `return_exceptions=True` and keeps only `FileInfo` results,
so per-file failures are logged and omitted. -/

structure FsFile where
  path : String
  supported : Bool
  parsed : Option FileInfo

inductive FsPath where
  | missing
  | file (f : FsFile)
  | dir (files : List FsFile)

def parse_directory (directory_path : String) : FsPath → Except String (List FileInfo)
  | .missing => .error ("Path does not exist: " ++ directory_path)
  | .file f =>
    if f.supported then
      match f.parsed with
      | some fi => .ok [fi]
      | none => .ok []
    else .ok []
  | .dir files =>
    .ok ((files.filter (fun f => f.supported)).filterMap (fun f => f.parsed))

/-- C8: `parse_directory` errors exactly on a missing path (with the
`Path does not exist` message); an existing path with no supported files
yields `[]` rather than an error; and the result never errors for an
existing path -- unparseable files are omitted while the rest of the batch
is returned. -/
theorem parse_directory_error_handling (dp : String) :
    (∀ p : FsPath, (∃ e, parse_directory dp p = .error e) ↔ p = FsPath.missing) ∧
    parse_directory dp FsPath.missing = .error ("Path does not exist: " ++ dp) ∧
    (∀ files : List FsFile, (∀ f ∈ files, f.supported = false) →
      parse_directory dp (FsPath.dir files) = .ok []) ∧
    (∀ f : FsFile, f.supported = false →
      parse_directory dp (FsPath.file f) = .ok []) ∧
    (∀ files : List FsFile,
      parse_directory dp (FsPath.dir files) =
        .ok ((files.filter (fun f => f.supported)).filterMap (fun f => f.parsed))) ∧
    (∀ f : FsFile, f.supported = true → f.parsed = none →
      parse_directory dp (FsPath.file f) = .ok []) := by
  refine ⟨?_, rfl, ?_, ?_, ?_, ?_⟩
  · intro p
    constructor
    · intro he
      rcases he with ⟨e, he⟩
      cases p with
      | missing => rfl
      | file f =>
        unfold parse_directory at he
        simp only [] at he
        split at he
        · split at he
          · exact Except.noConfusion he
          · exact Except.noConfusion he
        · exact Except.noConfusion he
      | dir files =>
        unfold parse_directory at he
        simp only [] at he
        exact Except.noConfusion he
    · intro hp
      subst hp
      exact ⟨"Path does not exist: " ++ dp, rfl⟩
  · intro files hall
    unfold parse_directory
    simp only []
    have hfilter : files.filter (fun f => f.supported) = [] := by
      rw [List.filter_eq_nil_iff]
      intro f hf
      simp [hall f hf]
    rw [hfilter]
    rfl
  · intro f hf
    unfold parse_directory
    simp only []
    rw [if_neg (by simp [hf])]
  · intro files
    rfl
  · intro f hsup hnone
    unfold parse_directory
    simp only []
    rw [if_pos hsup, hnone]

def c8Unsupported : FsFile := { path := "logo.png", supported := false, parsed := none }

def c8Broken : FsFile := { path := "bad.py", supported := true, parsed := none }

def c8Good : FsFile :=
  { path := "ok.py", supported := true,
    parsed := some { relative_path := "ok.py", language := "python", content := "x = 1" } }

/-- Witness for C8 at concrete inputs: a missing path errors, a directory
of unsupported files and a broken single file yield `[]`, and a directory
with one broken and one good file still returns without error. -/
theorem parse_directory_error_handling_witness :
    (∃ e, parse_directory "repo" FsPath.missing = Except.error e) ∧
    parse_directory "repo" (FsPath.dir [c8Unsupported]) = Except.ok [] ∧
    parse_directory "repo" (FsPath.file c8Broken) = Except.ok [] ∧
    ∃ l, parse_directory "repo" (FsPath.dir [c8Broken, c8Good]) = Except.ok l := by
  have h := parse_directory_error_handling "repo"
  refine ⟨(h.1 FsPath.missing).mpr rfl, ?_, ?_, ?_⟩
  · exact h.2.2.1 [c8Unsupported] (by decide)
  · exact h.2.2.2.2.2 c8Broken rfl rfl
  · exact ⟨_, h.2.2.2.2.1 [c8Broken, c8Good]⟩

end SeeCode
